import Mathlib

/-!
Verification of the skill-scheduler core (`src/services/skill_scheduler.py`)
against its natural-language specification.

The Python module is embedded shallowly: strings are `String`/`List Char`,
Python sets of strings are modelled as duplicate-free `List String` (all uses
in the source either test membership, count distinct elements, or sort, so a
dedup-maintained list is an exact model), the filesystem is a function from a
path to an optional file content (`none` models an `OSError` on read), and the
engine's mutable state is passed explicitly.  Python regular expressions used
by the source are compiled by hand into character-list scanners with the same
matching semantics (leftmost, non-overlapping, greedy character classes); the
scanners recurse structurally on a fuel argument initialised to the input
length, which strictly bounds the number of scanning steps, so that every
definition evaluates inside the kernel.
-/

set_option linter.unusedVariables false

/-! ### Character classes and small string utilities -/

/-- The double-quote character. -/
def qChar : Char := Char.ofNat 34

/-- The backtick character. -/
def btChar : Char := Char.ofNat 96

/-- The single-quote character. -/
def sqChar : Char := Char.ofNat 39

/-- Whitespace as recognised by Python `str.strip()` / `str.split()`
(space, tab, newline, carriage return, vertical tab, form feed; the
non-ASCII Unicode whitespace characters never occur in this repository's
data). -/
def isWsChar (c : Char) : Bool :=
  c = ' ' || c = Char.ofNat 9 || c = Char.ofNat 10 || c = Char.ofNat 13 ||
  c = Char.ofNat 11 || c = Char.ofNat 12

/-- The CJK ideograph range `一-鿿` used by the source's regexes. -/
def isCJKChar (c : Char) : Bool :=
  0x4e00 ≤ c.val.toNat && c.val.toNat ≤ 0x9fff

/-- The class `[a-z0-9]`. -/
def isLowerDigit (c : Char) : Bool :=
  (0x61 ≤ c.val.toNat && c.val.toNat ≤ 0x7a) || (0x30 ≤ c.val.toNat && c.val.toNat ≤ 0x39)

/-- The class `[a-z0-9\-]` (token tail characters). -/
def isTokenTail (c : Char) : Bool :=
  isLowerDigit c || c = '-'

/-- Python's `\w` word-character class, for the data this repository
processes: ASCII alphanumerics, underscore, and CJK ideographs.  (Python's
`\w` also admits other non-ASCII word characters; none are exercised by the
source's inputs, which are ASCII plus CJK.) -/
def pyWordChar (c : Char) : Bool :=
  c.isAlphanum || c = '_' || isCJKChar c

/-- The character class kept by the substitution in `_normalize_phrase`,
which replaces each run of characters outside `\w`, hyphen, the CJK range
and space by a single space. -/
def isKeepChar (c : Char) : Bool :=
  pyWordChar c || c = '-' || isCJKChar c || c = ' '

/-- Python `str.strip()`. -/
def pyStrip (l : List Char) : List Char :=
  ((l.dropWhile isWsChar).reverse.dropWhile isWsChar).reverse

/-- Python `str.lower()` on a character (ASCII case mapping; the source's
data is ASCII plus CJK, and CJK characters are case-invariant). -/
def pyLowerChar (c : Char) : Char := c.toLower

/-- Python `str.lower()`. -/
def pyLower (s : String) : String := String.mk (s.data.map pyLowerChar)

/-! ### `_strip_markdown` -/

/-- One attempted match of the markdown-link pattern (bracketed non-empty
text immediately followed by a parenthesised non-empty target) at the
position just after an opening `[`: returns the link text and the remainder
after the closing parenthesis, or `none` when the pattern does not match
here. -/
def linkMatch (rest : List Char) : Option (List Char × List Char) :=
  match rest.takeWhile (fun c => c ≠ ']'), rest.dropWhile (fun c => c ≠ ']') with
  | [], _ => none
  | txt, ']' :: '(' :: r2 =>
    match r2.takeWhile (fun c => c ≠ ')'), r2.dropWhile (fun c => c ≠ ')') with
    | [], _ => none
    | url, ')' :: r4 => some (txt, r4)
    | _, _ => none
  | _, _ => none

/-- Resolve markdown links to their visible text, scanning left to right
(the first substitution performed by `_strip_markdown`).  The fuel argument
bounds the number of scanning steps; callers pass the input length. -/
def stripLinksF : List Char → Nat → List Char
  | [], _ => []
  | l, 0 => l
  | c :: rest, fuel + 1 =>
    if c = '[' then
      match linkMatch rest with
      | some (txt, r) => txt ++ stripLinksF r fuel
      | none => c :: stripLinksF rest fuel
    else c :: stripLinksF rest fuel

def stripLinks (l : List Char) : List Char := stripLinksF l l.length

/-- Unwrap inline code spans (the second substitution performed by
`_strip_markdown`): a backtick, any run of non-backticks, and a closing
backtick are replaced by the enclosed run. -/
def stripCodeF : List Char → Nat → List Char
  | [], _ => []
  | l, 0 => l
  | c :: rest, fuel + 1 =>
    if c = btChar then
      match rest.dropWhile (fun d => d ≠ btChar) with
      | [] => c :: stripCodeF rest fuel
      | _ :: r2 => rest.takeWhile (fun d => d ≠ btChar) ++ stripCodeF r2 fuel
    else c :: stripCodeF rest fuel

def stripCode (l : List Char) : List Char := stripCodeF l l.length

/-- Python `str.replace(pat, "")` for a non-empty pattern `p :: ps`:
delete every occurrence, scanning left to right, non-overlapping. -/
def deleteOccF (p : Char) (ps : List Char) : List Char → Nat → List Char
  | [], _ => []
  | l, 0 => l
  | c :: rest, fuel + 1 =>
    if (p :: ps).isPrefixOf (c :: rest) then deleteOccF p ps (rest.drop ps.length) fuel
    else c :: deleteOccF p ps rest fuel

def deleteOcc (p : Char) (ps : List Char) (l : List Char) : List Char :=
  deleteOccF p ps l l.length

/-- Python `str.split()` (split on whitespace runs, dropping empties). -/
def wsSplitF : List Char → Nat → List (List Char)
  | [], _ => []
  | _, 0 => []
  | c :: rest, fuel + 1 =>
    if isWsChar c then wsSplitF rest fuel
    else (c :: rest.takeWhile (fun d => !isWsChar d)) ::
           wsSplitF (rest.dropWhile (fun d => !isWsChar d)) fuel

def wsSplit (l : List Char) : List (List Char) := wsSplitF l l.length

/-- `" ".join(text.split())`. -/
def wsJoin (l : List Char) : List Char :=
  List.intercalate [' '] (wsSplit l)

/-- `_strip_markdown` on character lists: resolve links, unwrap code spans,
drop `**` then `*`, collapse whitespace, strip. -/
def stripMarkdownChars (l : List Char) : List Char :=
  pyStrip (wsJoin (deleteOcc '*' [] (deleteOcc '*' ['*'] (stripCode (stripLinks l)))))

/-- `_strip_markdown(text)`. -/
def stripMarkdown (s : String) : String :=
  String.mk (stripMarkdownChars s.data)

/-! ### `_normalize_phrase` -/

/-- The substitution in `_normalize_phrase`: each maximal run of characters
outside the kept class becomes a single space. -/
def subBadRunsF : List Char → Nat → List Char
  | [], _ => []
  | l, 0 => l
  | c :: rest, fuel + 1 =>
    if isKeepChar c then c :: subBadRunsF rest fuel
    else ' ' :: subBadRunsF (rest.dropWhile (fun d => !isKeepChar d)) fuel

def subBadRuns (l : List Char) : List Char := subBadRunsF l l.length

/-- `_normalize_phrase` on character lists: strip markdown, lowercase,
replace disallowed runs by a space, underscores become spaces, collapse
whitespace. -/
def normalizeChars (l : List Char) : List Char :=
  let t1 := stripMarkdownChars l
  let t2 := t1.map pyLowerChar
  let t3 := subBadRuns t2
  let t4 := t3.map (fun c => if c = '_' then ' ' else c)
  wsJoin t4

/-- `_normalize_phrase(text)`. -/
def normalizePhrase (s : String) : String :=
  String.mk (normalizeChars s.data)

/-! ### `_tokenize` -/

/-- The `STOP_WORDS` set. -/
def stopWords : List String :=
  ["a", "an", "and", "are", "as", "at", "be", "before", "by", "do", "for",
   "from", "how", "i", "if", "in", "is", "it", "my", "of", "on", "or",
   "please", "the", "this", "to", "use", "when", "with", "you"]

/-- The `INTENT_TOKEN_ALIASES` table. -/
def intentTokenAliases : List (String × List String) :=
  [("deployment", ["deploy", "deployment", "release", "production", "pipeline",
                   "上線", "部署", "正式環境", "發版"]),
   ("planning", ["plan", "planning", "implement", "implementation", "how to",
                 "規劃", "實作", "怎麼做"]),
   ("environment", ["setup", "dependency", "dependencies", "module not found",
                    "venv", "docker", "依賴", "安裝套件"]),
   ("debugging", ["debug", "error", "exception", "crash", "bug",
                  "錯誤", "當機", "除錯"]),
   ("review", ["review", "feedback", "comment", "審查", "回饋", "建議"]),
   ("evaluation", ["evaluate", "evaluation", "benchmark", "metrics",
                   "評估", "分析結果", "比較實驗"])]

/-- The raw-token scan of `_tokenize`: leftmost non-overlapping maximal
matches of either an ASCII token (a `[a-z0-9]` starter followed by at least
one `[a-z0-9-]`) or a CJK run of length at least two. -/
def rawFindTokensF : List Char → Nat → List (List Char)
  | [], _ => []
  | _, 0 => []
  | c :: rest, fuel + 1 =>
    if isLowerDigit c then
      if rest.takeWhile isTokenTail = [] then rawFindTokensF rest fuel
      else (c :: rest.takeWhile isTokenTail) ::
             rawFindTokensF (rest.dropWhile isTokenTail) fuel
    else if isCJKChar c then
      if rest.takeWhile isCJKChar = [] then rawFindTokensF rest fuel
      else (c :: rest.takeWhile isCJKChar) ::
             rawFindTokensF (rest.dropWhile isCJKChar) fuel
    else rawFindTokensF rest fuel

def rawFindTokens (l : List Char) : List (List Char) := rawFindTokensF l l.length

/-- A raw token consisting purely of `[a-z0-9\-]` characters (the full
match test applied by the stop-word filter). -/
def isAsciiToken (t : List Char) : Bool :=
  !t.isEmpty && t.all isTokenTail

/-- Substring test, Python's `needle in haystack` on strings. -/
def strIn (needle hay : String) : Bool :=
  decide (needle.data <:+: hay.data)

/-- `_tokenize(text)`: normalize, collect raw tokens, drop ASCII stop
words and short ASCII tokens, then add the canonical intent tokens whose
normalized synonym phrase occurs in the normalized text.  The Python set is
modelled as a duplicate-free list. -/
def tokenizeText (s : String) : List String :=
  let normalized := normalizePhrase s
  let raw := rawFindTokens normalized.data
  let base := raw.filter (fun t =>
    if isAsciiToken t then
      !(stopWords.contains (String.mk t)) && t.length ≥ 2
    else true)
  let canonicals := intentTokenAliases.filterMap (fun ca =>
    if ca.2.any (fun al =>
        let na := normalizePhrase al
        na ≠ "" && strIn na normalized)
    then some ca.1 else none)
  (base.map String.mk ++ canonicals).dedup

/-! ### Data model -/

/-- `SkillDefinition` (alias and keyword sets modelled as duplicate-free
lists). -/
structure SkillDefinition where
  identifier : String
  display_name : String
  description : String
  triggers : List String
  path : String
  source_directory : String
  aliases : List String
  keywords : List String
  details_loaded : Bool
deriving Repr, DecidableEq

/-- A placeholder skill used only to make positional lookups total; every
lookup performed by the embedding is at an in-range position. -/
def defaultSkill : SkillDefinition :=
  { identifier := "", display_name := "", description := "", triggers := [],
    path := "", source_directory := "", aliases := [], keywords := [],
    details_loaded := false }

/-- `RouteHint`. -/
structure RouteHint where
  label : String
  skill_refs : List String
  keywords : List String
deriving Repr, DecidableEq

/-- `ScheduleDecision` (the skill field holds the referenced skill's value
at decision-creation time, which in the source is the last time the
referenced object can be mutated within the call). -/
structure ScheduleDecision where
  skill : SkillDefinition
  score : Nat
  reasons : List String
deriving Repr, DecidableEq

/-- `ScheduleDiagnostics`. -/
structure ScheduleDiagnostics where
  max_detailed_reads : Nat
  detailed_reads_used : Nat
  initial_ranked_candidates : Nat
  initial_unread_due_to_limit : Nat
  second_pass_ranked_candidates : Nat
  second_pass_unread_due_to_limit : Nat
  skipped_skill_ids : List String
  second_pass_used : Bool
deriving Repr, DecidableEq

/-- `skipped_due_to_limit_total` as computed by
`ScheduleDiagnostics.to_dict`. -/
def ScheduleDiagnostics.skippedTotal (d : ScheduleDiagnostics) : Nat :=
  d.initial_unread_due_to_limit + d.second_pass_unread_due_to_limit

/-- `guardrail_triggered` as computed by `ScheduleDiagnostics.to_dict`. -/
def ScheduleDiagnostics.guardrailTriggered (d : ScheduleDiagnostics) : Bool :=
  decide (0 < d.skippedTotal)

/-! ### Frontmatter parsing and the index loader -/

/-- Split a character list at newline characters, keeping an explicit final
(possibly empty) segment. -/
def splitOnNl : List Char → List (List Char)
  | [] => [[]]
  | c :: rest =>
    if c = Char.ofNat 10 then [] :: splitOnNl rest
    else
      match splitOnNl rest with
      | [] => [[c]]
      | h :: t => (c :: h) :: t

/-- Python `str.splitlines()` (for newline-terminated data; the source's
descriptor files use `\n` line endings). -/
def splitLines (s : String) : List String :=
  if s.data = [] then []
  else
    let parts := (splitOnNl s.data).map String.mk
    if s.data.getLast? = some (Char.ofNat 10) then parts.dropLast else parts

/-- Python `str.strip()` on strings. -/
def pyStripStr (s : String) : String := String.mk (pyStrip s.data)

/-- Lookup in a Python dict built by successive assignments (later
assignments win), modelled over the assignment list. -/
def dictGet (d : List (String × String)) (k dflt : String) : String :=
  match d.reverse.find? (fun p => p.1 == k) with
  | some p => p.2
  | none => dflt

/-- A quote character as stripped from frontmatter values. -/
def isQuoteChar (c : Char) : Bool := c = sqChar || c = qChar

/-- Python `str.strip("'\"")`. -/
def stripQuoteChars (l : List Char) : List Char :=
  ((l.dropWhile isQuoteChar).reverse.dropWhile isQuoteChar).reverse

/-- The body of a frontmatter block: the lines strictly before the first
line whose stripped form is `---`, or `none` when there is no such line. -/
def fmBody : List String → Option (List String)
  | [] => none
  | line :: rest =>
    if pyStripStr line = "---" then some []
    else
      match fmBody rest with
      | none => none
      | some body => some (line :: body)

/-- One `key: value` line added to the frontmatter assignment list (lines
without a colon are skipped; the key is stripped; the value is stripped and
then stripped of quotes). -/
def fmAddLine (d : List (String × String)) (raw : String) : List (String × String) :=
  let line := pyStripStr raw
  let key := line.data.takeWhile (fun c => c ≠ ':')
  match line.data.dropWhile (fun c => c ≠ ':') with
  | [] => d
  | _ :: value =>
      d ++ [(String.mk (pyStrip key), String.mk (stripQuoteChars (pyStrip value)))]

/-- `_parse_frontmatter(content)`. -/
def parseFrontmatter (content : String) : List (String × String) :=
  match splitLines content with
  | [] => []
  | first :: rest =>
    if pyStripStr first = "---" then
      match fmBody rest with
      | none => []
      | some body => body.foldl fmAddLine []
    else []

/-- A descriptor file as found on disk: its file name, the name of its
parent directory, its full path, and its content (`none` models an
unreadable file). -/
structure SkillFile where
  fileName : String
  parentName : String
  path : String
  content : Option String
deriving Repr, DecidableEq

/-- `SkillScheduler._parse_skill_index`: read a bounded head of the file,
parse frontmatter, normalize the identifier with a parent-directory
fallback, and build alias and keyword sets; triggers are not read. -/
def parseSkillIndex (f : SkillFile) (sourceDirectory : String) : Option SkillDefinition :=
  match f.content with
  | none => none
  | some content =>
    let contentHead := String.mk (content.data.take 10000)
    let fm := parseFrontmatter contentHead
    let normName := normalizePhrase (dictGet fm "name" "")
    let identifier := if normName ≠ "" then normName else pyLower f.parentName
    let displayName := pyStripStr (dictGet fm "name" f.parentName)
    let description := pyStripStr (dictGet fm "description" "")
    let triggers : List String := []
    let aliases :=
      ([identifier, normalizePhrase f.parentName, normalizePhrase displayName].dedup).filter
        (fun al => al ≠ "")
    let keywords :=
      tokenizeText (String.intercalate " " ([identifier, displayName, description] ++ triggers))
    some { identifier := identifier, display_name := displayName,
           description := description, triggers := triggers, path := f.path,
           source_directory := sourceDirectory, aliases := aliases,
           keywords := keywords, details_loaded := false }

/-- Code-point lexicographic order on character lists (Python string
comparison). -/
def strLtChars : List Char → List Char → Bool
  | [], [] => false
  | [], _ :: _ => true
  | _ :: _, [] => false
  | a :: as, b :: bs =>
    if a.val < b.val then true
    else if b.val < a.val then false
    else strLtChars as bs

/-- `a ≤ b` on strings, by code points, as a decidable proposition. -/
def strLe (a b : String) : Prop := strLtChars b.data a.data = false

instance : DecidableRel strLe := fun a b => by unfold strLe; infer_instance

/-- Sort order on descriptor files: by path (the source sorts the
recursively discovered `skill.md` paths for determinism). -/
def pathLe (a b : SkillFile) : Prop := strLe a.path b.path

instance : DecidableRel pathLe := fun a b => by unfold pathLe; infer_instance

/-- A skill-search directory: its path, whether it exists, and the
descriptor files found recursively under it. -/
structure SkillDir where
  dirPath : String
  present : Bool
  files : List SkillFile
deriving Repr, DecidableEq

/-- The registry contribution of one directory in `SkillScheduler.load`:
if absent, nothing; else the files whose lowercased name is `skill.md`,
in sorted-path order, each parsed, unparseable (unreadable) files
skipped. -/
def loadDir (d : SkillDir) : List SkillDefinition :=
  if d.present then
    (List.insertionSort pathLe (d.files.filter (fun f => pyLower f.fileName = "skill.md"))).filterMap
      (fun f => parseSkillIndex f d.dirPath)
  else []

/-- The registry built by `SkillScheduler.load` (route hints and the load
report are handled separately; the registry is reset and rebuilt). -/
def loadSkills (dirs : List SkillDir) : List SkillDefinition :=
  dirs.foldl (fun acc d => acc ++ loadDir d) []

/-! ### `_extract_triggers` -/

/-- Does a stripped line match the section header `## when to use this
skill` (case-insensitive, at least one whitespace character after the
hashes)? -/
def isWhenHeader (line : String) : Bool :=
  match pyStrip line.data with
  | '#' :: '#' :: rest =>
      decide (rest.takeWhile isWsChar ≠ []) &&
      decide ((rest.dropWhile isWsChar).map pyLowerChar = "when to use this skill".data)
  | _ => false

/-- Does a line's stripped form start a new `##` section (two hashes
followed by whitespace)? -/
def isH2Line (line : String) : Bool :=
  match pyStrip line.data with
  | '#' :: '#' :: c :: _ => isWsChar c
  | _ => false

/-- A bulleted list item: a `-` or `*` marker followed by at least one
whitespace character; the marker and the whitespace run are removed. -/
def bulletItem : List Char → Option (List Char)
  | [] => none
  | c :: rest =>
    if (c = '-' || c = '*') && (match rest with | d :: _ => isWsChar d | [] => false)
    then some (rest.dropWhile isWsChar) else none

/-- A numbered list item: digits, a dot, and at least one whitespace
character; the prefix is removed. -/
def numberedItem (l : List Char) : Option (List Char) :=
  if l.takeWhile Char.isDigit = [] then none
  else
    match l.dropWhile Char.isDigit with
    | '.' :: r2 =>
        if (match r2 with | d :: _ => isWsChar d | [] => false)
        then some (r2.dropWhile isWsChar) else none
    | _ => none

/-- The double-quoted phrases of a list item (non-empty quoted spans,
scanned left to right, non-overlapping). -/
def findQuotedF : List Char → Nat → List (List Char)
  | [], _ => []
  | _, 0 => []
  | c :: rest, fuel + 1 =>
    if c = qChar then
      if rest.takeWhile (fun d => d ≠ qChar) = [] then findQuotedF rest fuel
      else
        match rest.dropWhile (fun d => d ≠ qChar) with
        | [] => findQuotedF rest fuel
        | _ :: r2 => rest.takeWhile (fun d => d ≠ qChar) :: findQuotedF r2 fuel
    else findQuotedF rest fuel

def findQuoted (l : List Char) : List (List Char) := findQuotedF l l.length

/-- The trigger phrases contributed by the lines of the `when to use`
section, stopping at the next `##` section: for each list item, its
markdown-stripped text when non-empty, then its markdown-stripped quoted
phrases when non-empty. -/
def collectTriggerItems : List String → List String
  | [] => []
  | line :: rest =>
    let stripped := pyStrip line.data
    if isH2Line line then []
    else
      match (match bulletItem stripped with
             | some i => some i
             | none => numberedItem stripped) with
      | none => collectTriggerItems rest
      | some item =>
          let cleanedItem := stripMarkdown (String.mk item)
          let fromItem := if cleanedItem ≠ "" then [cleanedItem] else []
          let quoted := (findQuoted item).filterMap (fun ph =>
              let cp := stripMarkdown (String.mk ph)
              if cp ≠ "" then some cp else none)
          fromItem ++ quoted ++ collectTriggerItems rest

/-- The lines strictly after the first `when to use this skill` header, or
`none` when there is no such header. -/
def linesAfterWhenHeader : List String → Option (List String)
  | [] => none
  | line :: rest =>
    if isWhenHeader line then some rest else linesAfterWhenHeader rest

/-- Order-preserving dedup of the collected triggers (each trigger is
stripped; empties are dropped). -/
def dedupTriggersAux : List String → List String → List String
  | _, [] => []
  | seen, t :: rest =>
      let normalized := pyStripStr t
      if normalized = "" then dedupTriggersAux seen rest
      else if seen.contains normalized then dedupTriggersAux seen rest
      else normalized :: dedupTriggersAux (normalized :: seen) rest

def dedupTriggers (ts : List String) : List String := dedupTriggersAux [] ts

/-- `_extract_triggers(content)`. -/
def extractTriggers (content : String) : List String :=
  match linesAfterWhenHeader (splitLines content) with
  | none => []
  | some rest => dedupTriggers (collectTriggerItems rest)

/-! ### Detail loading -/

/-- `SkillScheduler._load_skill_details`: a no-op on an already-loaded
skill; on an unreadable file the skill is marked loaded with its triggers
left unchanged and `False` is returned; on success the triggers are
extracted, the keyword set is extended, the skill is marked loaded, and
`True` is returned. -/
def loadSkillDetails (fs : String → Option String) (skill : SkillDefinition) :
    Bool × SkillDefinition :=
  if skill.details_loaded then (false, skill)
  else
    match fs skill.path with
    | none => (false, { skill with details_loaded := true })
    | some content =>
        let triggers := extractTriggers content
        (true, { skill with
                   triggers := triggers,
                   keywords := (skill.keywords ++
                     tokenizeText (String.intercalate " " triggers)).dedup,
                   details_loaded := true })

/-- The trigger-matching loop shared by Phase 2 and the second pass: the
triggers whose normalized form has length at least 2 and occurs in the
normalized query. -/
def triggerHitsFor (triggers : List String) (nq : String) : List String :=
  triggers.filter (fun tr =>
    let nt := normalizePhrase tr
    decide (2 ≤ nt.length) && strIn nt nq)

/-! ### Phase 1 -/

/-- Distinct common elements of two string sets (Python `a & b`). -/
def setInter (a b : List String) : List String :=
  (a.filter (fun t => b.contains t)).dedup

/-- `insertionSort` over strings in code-point order (Python `sorted`). -/
def sortedStrings (l : List String) : List String :=
  List.insertionSort strLe l

/-- `SkillScheduler._ref_matches_skill`. -/
def refMatchesSkill (ref : String) (skill : SkillDefinition) : Bool :=
  let nr := normalizePhrase ref
  if nr = "" then false
  else if skill.aliases.contains nr then true
  else if skill.aliases.any (fun al => strIn nr al || strIn al nr) then true
  else nr == skill.identifier

/-- The Phase-1 cheap score and reasons for one skill: +80 for an alias
substring hit (reason names the lexicographically first hit), +min(40, 4·n)
for n overlapping keywords, +35 for the first route hint whose keywords
intersect the query tokens and one of whose references matches the
skill. -/
def phase1Eval (hints : List RouteHint) (query : String) (queryTokens : List String)
    (skill : SkillDefinition) : Nat × List String :=
  let aliasHits := sortedStrings (skill.aliases.filter (fun al =>
    decide (3 ≤ al.length) && strIn al query))
  let score1 : Nat := if aliasHits ≠ [] then 80 else 0
  let reasons1 : List String :=
    match aliasHits with
    | [] => []
    | hit :: _ => ["task mentions `" ++ hit ++ "`"]
  let keywordOverlap := sortedStrings (setInter queryTokens skill.keywords)
  let score2 : Nat := if keywordOverlap ≠ [] then min 40 (keywordOverlap.length * 4) else 0
  let reasons2 : List String :=
    if keywordOverlap ≠ [] then
      ["keyword overlap: " ++ String.intercalate ", " (keywordOverlap.take 4)]
    else []
  let hintFound := hints.find? (fun hint =>
    queryTokens.any (fun t => hint.keywords.contains t) &&
    hint.skill_refs.any (fun ref => refMatchesSkill ref skill))
  let score3 : Nat := match hintFound with | some _ => 35 | none => 0
  let reasons3 : List String :=
    match hintFound with
    | some hint => ["global rule: " ++ hint.label]
    | none => []
  (score1 + score2 + score3, reasons1 ++ reasons2 ++ reasons3)

/-- A Phase-1 candidate: the skill's registry position, its value, and its
Phase-1 score and reasons. -/
structure Candidate where
  idx : Nat
  skill : SkillDefinition
  score : Nat
  reasons : List String
deriving Repr, DecidableEq

/-- The Phase-1 candidate list: every skill with a positive cheap score. -/
def phase1Candidates (hints : List RouteHint) (query : String)
    (queryTokens : List String) (skills : List SkillDefinition) : List Candidate :=
  skills.enum.filterMap (fun p =>
    if 0 < (phase1Eval hints query queryTokens p.2).1 then
      some ⟨p.1, p.2, (phase1Eval hints query queryTokens p.2).1,
            (phase1Eval hints query queryTokens p.2).2⟩
    else none)

/-- The sort key `(-score, identifier)` on candidates. -/
def candLE (a b : Candidate) : Prop :=
  b.score < a.score ∨ (a.score = b.score ∧ strLe a.skill.identifier b.skill.identifier)

instance : DecidableRel candLE := fun a b => by unfold candLE; infer_instance

/-- The sort key `(-score, identifier)` on decisions. -/
def decisionLE (a b : ScheduleDecision) : Prop :=
  b.score < a.score ∨ (a.score = b.score ∧ strLe a.skill.identifier b.skill.identifier)

instance : DecidableRel decisionLE := fun a b => by unfold decisionLE; infer_instance

/-! ### Phase 2 -/

/-- The running state of the Phase-2 walk: the (mutation-carrying) skill
array, the remaining read budget, and the diagnostics counters and
decisions accumulated so far. -/
structure Phase2Acc where
  skills : List SkillDefinition
  budget : Nat
  used : Nat
  unread : Nat
  skipped : List String
  decisions : List ScheduleDecision
deriving Repr, DecidableEq

/-- One iteration of the Phase-2 loop over a candidate: under remaining
budget, lazily load details (budget consumed only when a real read
happens), add the trigger bonus `min(75, 25·hits)`; with the budget
exhausted and the skill never detail-loaded, count it as skipped (sample
capped at 8).  In every case the candidate contributes one decision. -/
def phase2Step (fs : String → Option String) (nq : String) (acc : Phase2Acc)
    (cand : Candidate) : Phase2Acc :=
  if 0 < acc.budget then
    let ld := loadSkillDetails fs cand.skill
    let budget2 := if ld.1 then acc.budget - 1 else acc.budget
    let used2 := if ld.1 then acc.used + 1 else acc.used
    let hits := triggerHitsFor ld.2.triggers nq
    let score2 := match hits with
      | [] => cand.score
      | _ :: _ => cand.score + min 75 (hits.length * 25)
    let reasons2 := match hits with
      | [] => cand.reasons
      | hit :: _ => cand.reasons ++ ["trigger match: " ++ hit]
    { skills := acc.skills.set cand.idx ld.2,
      budget := budget2, used := used2, unread := acc.unread, skipped := acc.skipped,
      decisions := acc.decisions ++ [{ skill := ld.2, score := score2, reasons := reasons2 }] }
  else if !cand.skill.details_loaded then
    { skills := acc.skills, budget := acc.budget, used := acc.used,
      unread := acc.unread + 1,
      skipped := if acc.skipped.length < 8 then acc.skipped ++ [cand.skill.identifier]
                 else acc.skipped,
      decisions := acc.decisions ++
        [{ skill := cand.skill, score := cand.score, reasons := cand.reasons }] }
  else
    { skills := acc.skills, budget := acc.budget, used := acc.used,
      unread := acc.unread, skipped := acc.skipped,
      decisions := acc.decisions ++
        [{ skill := cand.skill, score := cand.score, reasons := cand.reasons }] }

/-! ### Phase 3: trigger-only second pass -/

/-- The sort key `(-score, identifier)` on ranked second-pass entries. -/
def rankLE (a b : Nat × (Nat × SkillDefinition)) : Prop :=
  b.1 < a.1 ∨ (a.1 = b.1 ∧ strLe a.2.2.identifier b.2.2.identifier)

instance : DecidableRel rankLE := fun a b => by unfold rankLE; infer_instance

/-- `SkillScheduler._rank_second_pass_candidates`: every skill, scored
`20·(aliases of length ≥ 2 occurring in the normalized query) + 5·(keyword
overlap)`, sorted by `(-score, identifier)`; positions into the registry
are carried alongside. -/
def rankSecondPassCandidates (skills : List SkillDefinition) (query : String)
    (queryTokens : List String) : List (Nat × SkillDefinition) :=
  let ranked := skills.enum.map (fun p =>
    let aliasScore := (p.2.aliases.filter (fun al =>
      decide (2 ≤ al.length) && strIn al query)).length * 20
    let keywordOverlap := (setInter queryTokens p.2.keywords).length
    (aliasScore + keywordOverlap * 5, p))
  (List.insertionSort rankLE ranked).map (fun q => q.2)

/-- The running state of the second-pass walk. -/
structure SPAcc where
  skills : List SkillDefinition
  budget : Nat
  reads : Nat
  decisions : List ScheduleDecision
deriving Repr, DecidableEq

/-- One non-stopped iteration of the second-pass loop: lazily load the
candidate's details (budget consumed only on a real read) and emit a
decision only when at least one trigger matches, scored
`min(75, 25·hits)`. -/
def spProcess (fs : String → Option String) (nq : String) (i : Nat)
    (skill : SkillDefinition) (acc : SPAcc) : SPAcc :=
  let ld := loadSkillDetails fs skill
  let budget2 := if ld.1 then acc.budget - 1 else acc.budget
  let reads2 := if ld.1 then acc.reads + 1 else acc.reads
  let hits := triggerHitsFor ld.2.triggers nq
  let decisions2 := match hits with
    | [] => acc.decisions
    | hit :: _ => acc.decisions ++
        [{ skill := ld.2, score := min 75 (hits.length * 25),
           reasons := ["trigger match (second pass): " ++ hit] }]
  { skills := acc.skills.set i ld.2, budget := budget2, reads := reads2,
    decisions := decisions2 }

/-- The skipped-candidate report computed when the second-pass walk stops:
every candidate whose details are (still) not loaded, by count and by a
sample of at most 8 identifiers. -/
def spStop (allIdx : List Nat) (acc : SPAcc) : SPAcc × Nat × List String :=
  let remaining := allIdx.filter (fun j =>
    !(acc.skills.getD j defaultSkill).details_loaded)
  (acc, remaining.length,
    (remaining.take 8).map (fun j => (acc.skills.getD j defaultSkill).identifier))

/-- The second-pass walk: with the budget exhausted, stop and report the
skipped candidates; otherwise process the candidate and continue. -/
def spWalk (fs : String → Option String) (nq : String) (allIdx : List Nat) :
    List (Nat × SkillDefinition) → SPAcc → SPAcc × Nat × List String
  | [], acc => (acc, 0, [])
  | (i, skill) :: rest, acc =>
    if acc.budget = 0 then spStop allIdx acc
    else spWalk fs nq allIdx rest (spProcess fs nq i skill acc)

/-- The result of `SkillScheduler._trigger_only_second_pass`: the updated
registry, the decisions (sorted, truncated to `topN`), and the stats
dictionary's fields. -/
structure SPResult where
  skills : List SkillDefinition
  decisions : List ScheduleDecision
  rankedCandidates : Nat
  unread : Nat
  reads : Nat
  skippedIds : List String
deriving Repr, DecidableEq

/-- `SkillScheduler._trigger_only_second_pass`. -/
def triggerOnlySecondPass (fs : String → Option String) (skills : List SkillDefinition)
    (taskText : String) (topN : Nat) (readBudget : Nat) : SPResult :=
  let nq := normalizePhrase taskText
  if nq = "" then ⟨skills, [], 0, 0, 0, []⟩
  else if readBudget = 0 then ⟨skills, [], 0, 0, 0, []⟩
  else
    let queryTokens := tokenizeText taskText
    let ranked := rankSecondPassCandidates skills nq queryTokens
    let allIdx := ranked.map (fun p => p.1)
    let w := spWalk fs nq allIdx ranked ⟨skills, readBudget, 0, []⟩
    ⟨w.1.skills, (List.insertionSort decisionLE w.1.decisions).take topN,
      ranked.length, w.2.1, w.1.reads, w.2.2⟩

/-! ### Phase 4: static fallback -/

/-- The fixed ordered list of default intent identifiers. -/
def fallbackDefaults : List String :=
  ["planning-implementation", "planning", "managing-environment"]

/-- One probe of `_fallback_decisions`: the first registry skill whose
alias set contains the default identifier yields a decision unless its
identifier was already selected, in which case the probe yields nothing
(the scan over the registry stops at that first skill either way). -/
def fallbackProbe (skills : List SkillDefinition) (name : String)
    (selected : List String) : Option ScheduleDecision :=
  match skills.find? (fun skill => skill.aliases.contains name) with
  | none => none
  | some skill =>
      if selected.contains skill.identifier then none
      else some { skill := skill, score := 1,
                  reasons := ["fallback default for ambiguous task"] }

/-- The fallback scan over the ordered default identifiers, threading the
set of already-selected identifiers. -/
def fallbackGo (skills : List SkillDefinition) :
    List String → List String → List ScheduleDecision
  | [], _ => []
  | name :: names, selected =>
    match fallbackProbe skills name selected with
    | none => fallbackGo skills names selected
    | some d => d :: fallbackGo skills names (selected ++ [d.skill.identifier])

/-- `SkillScheduler._fallback_decisions`. -/
def fallbackDecisions (skills : List SkillDefinition) (topN : Nat) : List ScheduleDecision :=
  (fallbackGo skills fallbackDefaults []).take topN

/-! ### `schedule` -/

/-- The engine state a `schedule` call reads and writes: the registry, the
route hints, and the configured budget (the constructor clamps the budget
to at least 1; the theorems below hold for every value). -/
structure SchedulerState where
  skills : List SkillDefinition
  route_hints : List RouteHint
  max_detailed_reads : Nat
deriving Repr, DecidableEq

/-- The reset diagnostics snapshot installed for a blank query. -/
def emptyDiagnostics (m : Nat) : ScheduleDiagnostics :=
  ⟨m, 0, 0, 0, 0, 0, [], false⟩

/-- The merge of second-pass skipped identifiers into the diagnostics
sample: stop at 8, skip identifiers already present. -/
def mergeSkipped : List String → List String → List String
  | acc, [] => acc
  | acc, x :: xs =>
    if 8 ≤ acc.length then acc
    else if acc.contains x then mergeSkipped acc xs
    else mergeSkipped (acc ++ [x]) xs

/-- The result of one `schedule` call: the returned decisions, the
diagnostics snapshot stored on the engine, and the updated registry. -/
structure ScheduleResult where
  decisions : List ScheduleDecision
  diagnostics : ScheduleDiagnostics
  skills : List SkillDefinition
deriving Repr, DecidableEq

/-- `SkillScheduler.schedule` for a loaded engine: the blank-query guard,
Phase 1 (cheap scoring and sorting), Phase 2 (budgeted refinement; if any
decision resulted, return the sorted first `topN`), Phase 3 (trigger-only
second pass), Phase 4 (static fallback). -/
def schedule (fs : String → Option String) (st : SchedulerState)
    (taskText : String) (topN : Nat) : ScheduleResult :=
  if pyStripStr taskText = "" then ⟨[], emptyDiagnostics st.max_detailed_reads, st.skills⟩
  else
    let query := pyLower taskText
    let nq := normalizePhrase taskText
    let queryTokens := tokenizeText taskText
    let preliminary := List.insertionSort candLE
      (phase1Candidates st.route_hints query queryTokens st.skills)
    let p2 := preliminary.foldl (phase2Step fs nq)
      ⟨st.skills, st.max_detailed_reads, 0, 0, [], []⟩
    let decisions := List.insertionSort decisionLE p2.decisions
    if decisions ≠ [] then
      ⟨decisions.take topN,
        ⟨st.max_detailed_reads, p2.used, preliminary.length, p2.unread, 0, 0,
          p2.skipped, false⟩,
        p2.skills⟩
    else
      let sp := triggerOnlySecondPass fs p2.skills taskText topN p2.budget
      let diag : ScheduleDiagnostics :=
        ⟨st.max_detailed_reads, p2.used + sp.reads, preliminary.length, p2.unread,
          sp.rankedCandidates, sp.unread, mergeSkipped p2.skipped sp.skippedIds, true⟩
      if sp.decisions ≠ [] then ⟨sp.decisions, diag, sp.skills⟩
      else ⟨fallbackDecisions sp.skills topN, diag, sp.skills⟩

/-! ### Claim-side definitions and concrete data -/

/-- Split a character list at hyphens (used only to state the spec's
identifier pattern). -/
def hyphenGroups : List Char → List (List Char)
  | [] => [[]]
  | c :: rest =>
    if c = '-' then [] :: hyphenGroups rest
    else
      match hyphenGroups rest with
      | [] => [[c]]
      | h :: t => (c :: h) :: t

/-- Modelled from the spec: the identifier pattern
`[a-z0-9]+(-[a-z0-9]+)*` (one or more non-empty lowercase-alphanumeric
groups joined by single hyphens).  This is the spec's stated shape of
registry identifiers, against which the code is compared. -/
def matchesIdPattern (s : String) : Bool :=
  (hyphenGroups s.data).all (fun g => !g.isEmpty && g.all isLowerDigit)

/-- A descriptor file body in the shape the repository's own tests write
(frontmatter with name and description, then a `When to use this skill`
section listing the triggers). -/
def mkSkillContent (name desc : String) (triggers : List String) : String :=
  String.intercalate "\n"
    (["---", "name: " ++ name, "description: " ++ desc, "---", "",
      "## When to use this skill"] ++ triggers.map (fun t => "- " ++ t) ++
     ["", "## Workflow", "- Placeholder"])

/-- First of two descriptor files whose frontmatter names normalize to the
same identifier `alpha`. -/
def dupFileA : SkillFile :=
  { fileName := "SKILL.md"
    parentName := "alpha"
    path := "/skills/alpha/SKILL.md"
    content := some (mkSkillContent "alpha" "First." ["first trigger"]) }

/-- Second descriptor file normalizing to the identifier `alpha`. -/
def dupFileB : SkillFile :=
  { fileName := "SKILL.md"
    parentName := "alphadir"
    path := "/skills/alphadir/SKILL.md"
    content := some (mkSkillContent "alpha" "Second." ["second trigger"]) }

/-- A search directory holding the two colliding descriptor files. -/
def dupDir : SkillDir :=
  { dirPath := "/skills", present := true, files := [dupFileA, dupFileB] }

/-- A descriptor file whose frontmatter name normalizes to an identifier
containing a space. -/
def spaceNameFile : SkillFile :=
  { fileName := "SKILL.md"
    parentName := "hello"
    path := "/skills/hello/SKILL.md"
    content := some (mkSkillContent "Hello World" "Greets." ["say hello"]) }

/-- A descriptor file with no frontmatter, under a directory whose name
contains an underscore and uppercase letters. -/
def noFrontmatterFile : SkillFile :=
  { fileName := "SKILL.md"
    parentName := "My_Dir"
    path := "/skills/My_Dir/SKILL.md"
    content := some "Just a body, no frontmatter.\n" }

/-- A search directory holding the two pattern-violating descriptor
files. -/
def oddDir : SkillDir :=
  { dirPath := "/skills", present := true
    files := [spaceNameFile, noFrontmatterFile] }

/-- The `planning-implementation` descriptor file of the repository's own
fallback test (parent directory `planning`). -/
def planFile : SkillFile :=
  { fileName := "SKILL.md"
    parentName := "planning"
    path := "/skills/planning/SKILL.md"
    content := some (mkSkillContent "planning-implementation" "Planning helper" ["how to implement"]) }

/-- The `managing-environment` descriptor file of the repository's own
fallback test. -/
def envFile : SkillFile :=
  { fileName := "SKILL.md"
    parentName := "environment"
    path := "/skills/environment/SKILL.md"
    content := some (mkSkillContent "managing-environment" "Environment helper" ["install packages"]) }

/-- A second descriptor whose parent directory is also named `planning`,
so that its alias set also contains the default identifier `planning`. -/
def planHelperFile : SkillFile :=
  { fileName := "SKILL.md"
    parentName := "planning"
    path := "/extra/planning/SKILL.md"
    content := some (mkSkillContent "planning-helper" "Planning helper two" ["outline a plan"]) }

def planSkill : SkillDefinition := (parseSkillIndex planFile "/skills").getD defaultSkill

def envSkill : SkillDefinition := (parseSkillIndex envFile "/skills").getD defaultSkill

def planHelperSkill : SkillDefinition := (parseSkillIndex planHelperFile "/extra").getD defaultSkill

/-- The filesystem of the fallback scenario. -/
def fsScenC : String → Option String := fun p =>
  if p = planFile.path then planFile.content
  else if p = envFile.path then envFile.content
  else none

/-- The engine state of the fallback scenario (Scenario C). -/
def stScenC : SchedulerState :=
  { skills := [planSkill, envSkill], route_hints := [], max_detailed_reads := 3 }

/-- The filesystem of the two-`planning`-skills counterexample. -/
def fsTwoPlan : String → Option String := fun p =>
  if p = planFile.path then planFile.content
  else if p = planHelperFile.path then planHelperFile.content
  else none

/-- An engine state holding two skills whose alias sets both contain the
default identifier `planning`. -/
def stTwoPlan : SchedulerState :=
  { skills := [planSkill, planHelperSkill], route_hints := [], max_detailed_reads := 3 }

/-- One of the four budget-scenario descriptor files (Scenario D shape). -/
def budFile (i : Nat) : SkillFile :=
  { fileName := "SKILL.md"
    parentName := "deploy-skill-" ++ toString i
    path := "/skills/deploy-skill-" ++ toString i ++ "/SKILL.md"
    content := some (mkSkillContent ("deploy-skill-" ++ toString i)
      "Deploy helper for production release" ["deploy flow trigger " ++ toString i]) }

def budSkill (i : Nat) : SkillDefinition := (parseSkillIndex (budFile i) "/skills").getD defaultSkill

/-- The filesystem of the budget scenario. -/
def fsBud : String → Option String := fun p =>
  if p = (budFile 0).path then (budFile 0).content
  else if p = (budFile 1).path then (budFile 1).content
  else if p = (budFile 2).path then (budFile 2).content
  else if p = (budFile 3).path then (budFile 3).content
  else none

/-- The engine state of the budget scenario: four skills, budget 2. -/
def stBud : SchedulerState :=
  { skills := [budSkill 0, budSkill 1, budSkill 2, budSkill 3]
    route_hints := [], max_detailed_reads := 2 }

/-! ### Helper lemmas -/

set_option maxRecDepth 8000
set_option maxHeartbeats 1600000

theorem loadFold_length (dirs : List SkillDir) :
    ∀ acc : List SkillDefinition,
      (dirs.foldl (fun a d => a ++ loadDir d) acc).length =
        acc.length + (dirs.map (fun d => (loadDir d).length)).sum := by
  induction dirs with
  | nil => intro acc; simp
  | cons d dirs ih =>
      intro acc
      simp only [List.foldl_cons, List.map_cons, List.sum_cons]
      rw [ih]
      simp [List.length_append]
      omega

theorem mem_loadFold {sk : SkillDefinition} (dirs : List SkillDir) :
    ∀ acc : List SkillDefinition,
      sk ∈ dirs.foldl (fun a d => a ++ loadDir d) acc →
      sk ∈ acc ∨ ∃ d ∈ dirs, sk ∈ loadDir d := by
  induction dirs with
  | nil => intro acc h; exact Or.inl h
  | cons d dirs ih =>
      intro acc h
      simp only [List.foldl_cons] at h
      rcases ih (acc ++ loadDir d) h with h2 | h2
      · rcases List.mem_append.mp h2 with h3 | h3
        · exact Or.inl h3
        · exact Or.inr ⟨d, List.mem_cons_self .., h3⟩
      · obtain ⟨d2, hd2, hsk⟩ := h2
        exact Or.inr ⟨d2, List.mem_cons_of_mem _ hd2, hsk⟩

theorem fallbackGo_shape (skills : List SkillDefinition) :
    ∀ (names selected : List String) (d : ScheduleDecision),
      d ∈ fallbackGo skills names selected →
      d.score = 1 ∧ d.reasons = ["fallback default for ambiguous task"] ∧
        ∃ name ∈ names, skills.find? (fun sk => sk.aliases.contains name) = some d.skill := by
  intro names
  induction names with
  | nil => intro selected d h; simp [fallbackGo] at h
  | cons name names ih =>
      intro selected d h
      unfold fallbackGo at h
      cases hp : fallbackProbe skills name selected with
      | none =>
          rw [hp] at h
          obtain ⟨h1, h2, name2, hn2, h3⟩ := ih selected d h
          exact ⟨h1, h2, name2, List.mem_cons_of_mem _ hn2, h3⟩
      | some d0 =>
          rw [hp] at h
          rcases List.mem_cons.mp h with h2 | h2
          · subst h2
            unfold fallbackProbe at hp
            split at hp
            · exact absurd hp (by simp)
            · rename_i sk0 hf
              split at hp
              · exact absurd hp (by simp)
              · rw [Option.some.injEq] at hp
                subst hp
                exact ⟨rfl, rfl, name, List.mem_cons_self .., hf⟩
          · obtain ⟨h1, h2, name2, hn2, h3⟩ :=
              ih (selected ++ [d0.skill.identifier]) d h2
            exact ⟨h1, h2, name2, List.mem_cons_of_mem _ hn2, h3⟩

theorem fallbackGo_nodup (skills : List SkillDefinition) :
    ∀ (names selected : List String),
      ((fallbackGo skills names selected).map (fun d => d.skill.identifier)).Nodup ∧
      ∀ d ∈ fallbackGo skills names selected, ¬selected.contains d.skill.identifier = true := by
  intro names
  induction names with
  | nil => intro selected; simp [fallbackGo]
  | cons name names ih =>
      intro selected
      unfold fallbackGo
      cases hp : fallbackProbe skills name selected with
      | none => exact ih selected
      | some d0 =>
          obtain ⟨ihn, ihsel⟩ := ih (selected ++ [d0.skill.identifier])
          have hd0 : ¬selected.contains d0.skill.identifier = true := by
            unfold fallbackProbe at hp
            split at hp
            · exact absurd hp (by simp)
            · rename_i sk0 hf
              split at hp
              · exact absurd hp (by simp)
              · rename_i hsel
                rw [Option.some.injEq] at hp
                subst hp
                exact hsel
          constructor
          · rw [List.map_cons, List.nodup_cons]
            refine ⟨fun hmem => ?_, ihn⟩
            obtain ⟨d2, hd2, hid⟩ := List.mem_map.mp hmem
            have := ihsel d2 hd2
            simp at this
            exact absurd hid this.2
          · intro d hd
            rcases List.mem_cons.mp hd with h2 | h2
            · subst h2; exact hd0
            · have := ihsel d h2
              simp at this ⊢
              exact this.1

/-! ### Claims C1 and C5 -/

/-- C1: counterexample.  Two descriptor files whose frontmatter names both
normalize to the identifier `alpha` do NOT leave exactly one entry for
`alpha` in the registry: after `load()` both entries are present (the
earlier file's entry, recognisable by its description `First.`, is not
overwritten). -/
theorem C1_counterexample :
    ((loadSkills [dupDir]).filter (fun s => s.identifier = "alpha")).map
      (fun s => s.description) = ["First.", "Second."] := by decide

/-- C1, amended: identifiers are not unique in the registry.  `load()`
keeps one registry entry per successfully parsed descriptor file (the
registry length is the sum of the per-directory contributions; nothing is
deduplicated), and when two descriptor files normalize to the same
identifier both entries remain, in sorted-path order, the earlier file's
entry first. -/
theorem C1_amended :
    (∀ dirs : List SkillDir,
      (loadSkills dirs).length = (dirs.map (fun d => (loadDir d).length)).sum) ∧
    (loadSkills [dupDir]).map (fun s => (s.identifier, s.description)) =
      [("alpha", "First."), ("alpha", "Second.")] := by
  constructor
  · intro dirs
    unfold loadSkills
    rw [loadFold_length]
    simp
  · decide

/-- C5: counterexample.  With two registry skills whose alias sets both
contain the default identifier `planning` — `planning-implementation`
(also holding the alias `planning-implementation`) and `planning-helper` —
and a topic-free query, the fallback phase returns only
`planning-implementation`: when the first registry skill holding the
probed default alias has already been selected, the scan stops instead of
moving on to the first not-yet-selected skill holding that alias, so
`planning-helper` is not emitted even though its alias set contains
`planning` and it was never selected. -/
theorem C5_counterexample :
    ((schedule fsTwoPlan stTwoPlan "random text without known keywords" 5).decisions.map
      (fun d => d.skill.identifier) = ["planning-implementation"]) ∧
    planHelperSkill ∈ stTwoPlan.skills ∧
    "planning" ∈ planHelperSkill.aliases ∧
    planHelperSkill.identifier = "planning-helper" ∧
    "planning" ∈ fallbackDefaults := by decide

/-- C5, amended.  Whenever Phases 1–3 yield no decisions, `schedule()`
probes the default intent identifiers in fixed order; each probe considers
only the FIRST registry skill in iteration order whose alias set contains
the probed default identifier and emits it with the constant score 1 and
the reason `fallback default for ambiguous task` unless that very skill
was already selected, in which case the probe contributes nothing (later
alias-holding skills are not considered); the selected identifiers are
pairwise distinct and the list is truncated to `topN`.  In particular,
with a registry containing only `planning-implementation` and
`managing-environment` and a topic-free query, the decisions are exactly
`[planning-implementation, managing-environment]`. -/
theorem C5_amended :
    (∀ (skills : List SkillDefinition) (topN : Nat),
      ∀ d ∈ fallbackDecisions skills topN,
        d.score = 1 ∧ d.reasons = ["fallback default for ambiguous task"] ∧
        ∃ name ∈ fallbackDefaults,
          skills.find? (fun sk => sk.aliases.contains name) = some d.skill) ∧
    (∀ (skills : List SkillDefinition) (topN : Nat),
      ((fallbackDecisions skills topN).map (fun d => d.skill.identifier)).Nodup) ∧
    ((schedule fsScenC stScenC "random text without known keywords" 5).decisions.map
        (fun d => (d.skill.identifier, d.score, d.reasons)) =
      [("planning-implementation", 1, ["fallback default for ambiguous task"]),
       ("managing-environment", 1, ["fallback default for ambiguous task"])]) := by
  refine ⟨?_, ?_, by decide⟩
  · intro skills topN d hd
    unfold fallbackDecisions at hd
    exact fallbackGo_shape skills fallbackDefaults [] d (List.mem_of_mem_take hd)
  · intro skills topN
    unfold fallbackDecisions
    rw [List.map_take]
    exact List.Nodup.sublist (List.take_sublist ..)
      (fallbackGo_nodup skills fallbackDefaults []).1

/-! ### Claim C3 -/

theorem mem_intersperse_of_mem {s t : List Char} :
    ∀ {parts : List (List Char)}, t ∈ List.intersperse s parts → t ∈ parts ∨ t = s := by
  intro parts
  induction parts with
  | nil => intro h; simp at h
  | cons x rest ih =>
      intro h
      cases rest with
      | nil => simp at h; simp [h]
      | cons y rest2 =>
          rw [List.intersperse_cons_cons] at h
          rcases List.mem_cons.mp h with h2 | h2
          · exact Or.inl (by simp [h2])
          · rcases List.mem_cons.mp h2 with h3 | h3
            · exact Or.inr h3
            · rcases ih h3 with h4 | h4
              · exact Or.inl (List.mem_cons_of_mem _ h4)
              · exact Or.inr h4

theorem mem_intercalate_space {c : Char} {parts : List (List Char)}
    (h : c ∈ List.intercalate [' '] parts) : (∃ t ∈ parts, c ∈ t) ∨ c = ' ' := by
  unfold List.intercalate at h
  obtain ⟨t, ht, hc⟩ := List.mem_flatten.mp h
  rcases mem_intersperse_of_mem ht with h2 | h2
  · exact Or.inl ⟨t, h2, hc⟩
  · subst h2
    rcases List.mem_singleton.mp hc
    exact Or.inr rfl

theorem mem_of_mem_wsSplitF {c : Char} :
    ∀ (fuel : Nat) (l t : List Char), t ∈ wsSplitF l fuel → c ∈ t → c ∈ l := by
  intro fuel
  induction fuel with
  | zero => intro l t h; cases l <;> simp [wsSplitF] at h
  | succ fuel ih =>
      intro l t h hc
      cases l with
      | nil => simp [wsSplitF] at h
      | cons a rest =>
          unfold wsSplitF at h
          by_cases hw : isWsChar a
          · rw [if_pos hw] at h
            exact List.mem_cons_of_mem _ (ih rest t h hc)
          · rw [if_neg hw] at h
            rcases List.mem_cons.mp h with h2 | h2
            · subst h2
              rcases List.mem_cons.mp hc with h3 | h3
              · exact h3 ▸ List.mem_cons_self ..
              · exact List.mem_cons_of_mem _
                  ((List.takeWhile_sublist _).subset h3)
            · exact List.mem_cons_of_mem _
                ((List.dropWhile_sublist _).subset (ih _ t h2 hc))

theorem mem_of_mem_wsJoin {c : Char} {l : List Char} (h : c ∈ wsJoin l) :
    c ∈ l ∨ c = ' ' := by
  unfold wsJoin at h
  rcases mem_intercalate_space h with ⟨t, ht, hc⟩ | h2
  · exact Or.inl (mem_of_mem_wsSplitF l.length l t ht hc)
  · exact Or.inr h2

theorem mem_of_mem_subBadRunsF {c : Char} :
    ∀ (fuel : Nat) (l : List Char), c ∈ subBadRunsF l fuel → c ∈ l ∨ c = ' ' := by
  intro fuel
  induction fuel with
  | zero =>
      intro l h
      cases l with
      | nil => simp [subBadRunsF] at h
      | cons a rest => exact Or.inl (by simpa [subBadRunsF] using h)
  | succ fuel ih =>
      intro l h
      cases l with
      | nil => simp [subBadRunsF] at h
      | cons a rest =>
          unfold subBadRunsF at h
          by_cases hk : isKeepChar a
          · rw [if_pos hk] at h
            rcases List.mem_cons.mp h with h2 | h2
            · exact Or.inl (h2 ▸ List.mem_cons_self ..)
            · rcases ih rest h2 with h3 | h3
              · exact Or.inl (List.mem_cons_of_mem _ h3)
              · exact Or.inr h3
          · rw [if_neg hk] at h
            rcases List.mem_cons.mp h with h2 | h2
            · exact Or.inr h2
            · rcases ih _ h2 with h3 | h3
              · exact Or.inl (List.mem_cons_of_mem _
                  ((List.dropWhile_sublist _).subset h3))
              · exact Or.inr h3

theorem pyLowerChar_not_upper (c : Char) :
    ¬(65 ≤ (pyLowerChar c).val.toNat ∧ (pyLowerChar c).val.toNat ≤ 90) := by
  unfold pyLowerChar Char.toLower
  by_cases h : c.toNat ≥ 65 ∧ c.toNat ≤ 90
  · rw [if_pos h]
    have h65 : 65 ≤ c.toNat := h.1
    have h90 : c.toNat ≤ 90 := h.2
    have : c.toNat = c.val.toNat := rfl
    interval_cases hn : c.toNat <;> decide
  · rw [if_neg h]
    exact h

theorem normalizeChars_not_upper {c : Char} {l : List Char} (h : c ∈ normalizeChars l) :
    ¬(65 ≤ c.val.toNat ∧ c.val.toNat ≤ 90) := by
  unfold normalizeChars at h
  rcases mem_of_mem_wsJoin h with h2 | h2
  · obtain ⟨d, hd, hcd⟩ := List.mem_map.mp h2
    by_cases hdu : d = '_'
    · rw [if_pos hdu] at hcd
      subst hcd
      decide
    · rw [if_neg hdu] at hcd
      subst hcd
      rcases mem_of_mem_subBadRunsF _ _ hd with h3 | h3
      · obtain ⟨e, he, hce⟩ := List.mem_map.mp h3
        subst hce
        exact pyLowerChar_not_upper e
      · subst h3
        decide
  · subst h2
    decide

theorem normalizePhrase_not_upper {c : Char} {s : String}
    (h : c ∈ (normalizePhrase s).data) :
    ¬(65 ≤ c.val.toNat ∧ c.val.toNat ≤ 90) := by
  have h2 : c ∈ normalizeChars s.data := by
    rw [normalizePhrase] at h
    exact h
  exact normalizeChars_not_upper h2

theorem pyLower_not_upper {c : Char} {s : String} (h : c ∈ (pyLower s).data) :
    ¬(65 ≤ c.val.toNat ∧ c.val.toNat ≤ 90) := by
  unfold pyLower at h
  obtain ⟨d, hd, hcd⟩ := List.mem_map.mp h
  subst hcd
  exact pyLowerChar_not_upper d

theorem parseSkillIndex_identifier {f : SkillFile} {dir : String} {sk : SkillDefinition}
    (h : parseSkillIndex f dir = some sk) :
    (∃ s : String, sk.identifier = normalizePhrase s) ∨
      sk.identifier = pyLower f.parentName := by
  unfold parseSkillIndex at h
  rcases hc : f.content with - | content
  · rw [hc] at h; exact absurd h (by simp)
  · rw [hc] at h
    simp only [Option.some.injEq] at h
    subst h
    by_cases hn :
      normalizePhrase (dictGet (parseFrontmatter (String.mk (content.data.take 10000))) "name" "") ≠ ""
    · rw [if_pos hn]
      exact Or.inl ⟨_, rfl⟩
    · rw [if_neg hn]
      exact Or.inr rfl

/-- C3: counterexample.  After `load()` over a directory holding a
descriptor whose frontmatter name is `Hello World` and a descriptor with
no frontmatter under the directory `My_Dir`, the registry holds the
identifiers `my_dir` and `hello world`: both are present in the registry
and neither matches the spec's pattern `[a-z0-9]+(-[a-z0-9]+)*` (the first
contains an underscore, the second a space). -/
theorem C3_counterexample :
    (loadSkills [oddDir]).map (fun s => s.identifier) = ["my_dir", "hello world"] ∧
    matchesIdPattern "my_dir" = false ∧
    matchesIdPattern "hello world" = false := by decide

/-- C3, amended.  Registry identifiers need not match
`[a-z0-9]+(-[a-z0-9]+)*`: the identifier is `normalize(name)` when that is
non-empty (which can contain spaces and CJK ideographs) and otherwise
falls back to the lowercased parent directory name (which can contain
underscores); no descriptor is skipped for the shape of its identifier.
What does hold of every registry identifier, after any `load()`, is that
it contains no uppercase ASCII letter. -/
theorem C3_amended :
    (∀ dirs : List SkillDir, ∀ sk ∈ loadSkills dirs,
      ∀ c ∈ sk.identifier.data, ¬(65 ≤ c.val.toNat ∧ c.val.toNat ≤ 90)) ∧
    (loadSkills [oddDir]).map (fun s => s.identifier) = ["my_dir", "hello world"] := by
  constructor
  · intro dirs sk hsk c hc
    rcases mem_loadFold dirs [] hsk with h | ⟨d, hd, hsk2⟩
    · simp at h
    · unfold loadDir at hsk2
      by_cases hp : d.present
      · rw [if_pos hp] at hsk2
        obtain ⟨f, hf, hparse⟩ := List.mem_filterMap.mp hsk2
        rcases parseSkillIndex_identifier hparse with ⟨s, hid⟩ | hid
        · rw [hid] at hc
          exact normalizePhrase_not_upper hc
        · rw [hid] at hc
          exact pyLower_not_upper hc
      · rw [if_neg hp] at hsk2
        simp at hsk2
  · decide

/-- C3, witness for the amended theorem: the first character of the
concrete registry identifier `my_dir` is not an uppercase ASCII letter. -/
theorem C3_amended_witness :
    ¬(65 ≤ ('m' : Char).val.toNat ∧ ('m' : Char).val.toNat ≤ 90) := by
  have hmap : (loadSkills [oddDir]).map (fun s => s.identifier) =
      ["my_dir", "hello world"] := by decide
  obtain ⟨sk, hsk, hid⟩ : ∃ sk ∈ loadSkills [oddDir], sk.identifier = "my_dir" := by
    rcases hl : loadSkills [oddDir] with - | ⟨a, rest⟩
    · rw [hl] at hmap; simp at hmap
    · rw [hl] at hmap
      simp only [List.map_cons, List.cons.injEq] at hmap
      exact ⟨a, List.mem_cons_self .., hmap.1⟩
  exact C3_amended.1 [oddDir] sk hsk 'm' (by rw [hid]; decide)

/-! ### Claims C6 and C7 -/

/-- C6: once a skill's details are loaded, no later walk that touches the
skill spends budget on it.  `_load_skill_details` is a pure no-op on a
loaded skill, the Phase-2 step leaves the budget and the used-reads
counter unchanged when the candidate's skill is already loaded, and the
second-pass walk processes an already-loaded candidate without touching
its budget or read counter. -/
theorem C6_memoized :
    ∀ (fs : String → Option String) (skill : SkillDefinition),
      skill.details_loaded = true →
      loadSkillDetails fs skill = (false, skill) ∧
      (∀ (nq : String) (acc : Phase2Acc) (cand : Candidate), cand.skill = skill →
        (phase2Step fs nq acc cand).budget = acc.budget ∧
        (phase2Step fs nq acc cand).used = acc.used) ∧
      (∀ (nq : String) (allIdx : List Nat) (rest : List (Nat × SkillDefinition))
          (i : Nat) (acc : SPAcc), acc.budget ≠ 0 →
        spWalk fs nq allIdx ((i, skill) :: rest) acc =
          spWalk fs nq allIdx rest (spProcess fs nq i skill acc) ∧
        (spProcess fs nq i skill acc).budget = acc.budget ∧
        (spProcess fs nq i skill acc).reads = acc.reads) := by
  intro fs skill hl
  have hload : loadSkillDetails fs skill = (false, skill) := by
    unfold loadSkillDetails
    rw [if_pos hl]
  refine ⟨hload, ?_, ?_⟩
  · intro nq acc cand hcs
    unfold phase2Step
    by_cases hb : 0 < acc.budget
    · rw [if_pos hb, hcs, hload]
      exact ⟨rfl, rfl⟩
    · rw [if_neg hb]
      by_cases hnl : !cand.skill.details_loaded
      · rw [hcs, hl] at hnl; simp at hnl
      · rw [if_neg hnl]
        exact ⟨rfl, rfl⟩
  · intro nq allIdx rest i acc hb
    refine ⟨by simp only [spWalk]; rw [if_neg hb], ?_, ?_⟩
    · unfold spProcess
      rw [hload]
      rfl
    · unfold spProcess
      rw [hload]
      rfl

/-- C6, witness: a concrete already-loaded skill is load-detailed as a
budget-free no-op. -/
theorem C6_memoized_witness :
    loadSkillDetails (fun _ => none) { budSkill 0 with details_loaded := true } =
      (false, { budSkill 0 with details_loaded := true }) :=
  (C6_memoized (fun _ => none) { budSkill 0 with details_loaded := true } rfl).1

/-- C7: a skill whose descriptor file is unreadable at detail-load time is
soft-failed: the load returns normally with `False` (so no budget is
consumed wherever the walk consults that flag), the trigger list stays
empty, the skill is marked loaded, and a repeated load attempt is a no-op;
under remaining Phase-2 budget the step leaves the budget and the
used-reads counter unchanged for such a skill. -/
theorem C7_softfail :
    ∀ (fs : String → Option String) (skill : SkillDefinition),
      fs skill.path = none → skill.details_loaded = false → skill.triggers = [] →
      loadSkillDetails fs skill = (false, { skill with details_loaded := true }) ∧
      ({ skill with details_loaded := true }).triggers = [] ∧
      loadSkillDetails fs { skill with details_loaded := true } =
        (false, { skill with details_loaded := true }) ∧
      (∀ (nq : String) (acc : Phase2Acc) (cand : Candidate),
        cand.skill = skill → 0 < acc.budget →
        (phase2Step fs nq acc cand).budget = acc.budget ∧
        (phase2Step fs nq acc cand).used = acc.used) := by
  intro fs skill hfs hdl htr
  have hload : loadSkillDetails fs skill = (false, { skill with details_loaded := true }) := by
    unfold loadSkillDetails
    rw [if_neg (by rw [hdl]; exact Bool.false_ne_true), hfs]
  refine ⟨hload, htr, ?_, ?_⟩
  · unfold loadSkillDetails
    rw [if_pos rfl]
  · intro nq acc cand hcs hb
    unfold phase2Step
    rw [if_pos hb, hcs, hload]
    exact ⟨rfl, rfl⟩

/-- C7, witness: a concrete never-loaded skill whose file is unreadable is
soft-failed into the loaded state with empty triggers. -/
theorem C7_softfail_witness :
    loadSkillDetails (fun _ => none) (budSkill 0) =
      (false, { budSkill 0 with details_loaded := true }) :=
  (C7_softfail (fun _ => none) (budSkill 0) rfl (by decide) (by decide)).1

/-! ### Claim C8 -/

theorem cjk_not_tokenTail {c : Char} (h : isCJKChar c = true) : isTokenTail c = false := by
  unfold isCJKChar at h
  simp only [Bool.and_eq_true, decide_eq_true_eq] at h
  unfold isTokenTail isLowerDigit
  rw [Bool.eq_false_iff]
  intro hcontra
  rcases Bool.or_eq_true_iff.mp hcontra with h2 | h2
  · rcases Bool.or_eq_true_iff.mp h2 with h3 | h3 <;>
      · simp only [Bool.and_eq_true, decide_eq_true_eq] at h3
        omega
  · have hc : c = '-' := by simpa using h2
    subst hc
    exact absurd h.1 (by decide)

theorem isAsciiToken_false_of_cjk {t : List Char} (h : t.all isCJKChar = true) :
    isAsciiToken t = false := by
  cases t with
  | nil => rfl
  | cons c rest =>
      unfold isAsciiToken
      simp only [List.all_cons, Bool.and_eq_true] at h
      simp only [List.all_cons]
      rw [cjk_not_tokenTail h.1]
      simp

/-- C8: `_tokenize` drops ASCII tokens that are stop words or shorter than
2 characters — no token of the result that is a pure `[a-z0-9-]` token is
a stop word or shorter than 2 — while raw CJK tokens are never
stop-word-filtered: every raw token consisting of CJK ideographs appears
in the result. -/
theorem C8_tokenizer :
    ∀ s : String,
      (∀ t ∈ tokenizeText s, isAsciiToken t.data = true →
        t ∉ stopWords ∧ 2 ≤ t.length) ∧
      (∀ t ∈ rawFindTokens (normalizePhrase s).data, t.all isCJKChar = true →
        String.mk t ∈ tokenizeText s) := by
  intro s
  constructor
  · intro t ht hascii
    unfold tokenizeText at ht
    rcases List.mem_append.mp (List.mem_dedup.mp ht) with h2 | h2
    · obtain ⟨t0, ht0, hmk⟩ := List.mem_map.mp h2
      have hpred := List.of_mem_filter ht0
      have hdata : t.data = t0 := by rw [← hmk]
      rw [hdata] at hascii
      rw [if_pos hascii] at hpred
      simp only [Bool.and_eq_true, Bool.not_eq_true', decide_eq_true_eq] at hpred
      constructor
      · intro hmem
        rw [← hmk] at hmem
        have : stopWords.contains (String.mk t0) = true := by
          simpa using hmem
        rw [hpred.1] at this
        exact Bool.false_ne_true this
      · have hlen : t.length = t0.length := by
          rw [← hmk]
          rfl
        omega
    · obtain ⟨ca, hca, hsome⟩ := List.mem_filterMap.mp h2
      have hcat : t = ca.1 := by
        by_cases hcond : ca.2.any (fun al =>
            let na := normalizePhrase al
            na ≠ "" && strIn na (normalizePhrase s)) = true
        · rw [if_pos hcond] at hsome
          exact (Option.some.injEq ..).mp hsome.symm
        · rw [if_neg hcond] at hsome
          exact absurd hsome (by simp)
      subst hcat
      fin_cases hca <;> exact ⟨by decide, by decide⟩
  · intro t ht hcjk
    unfold tokenizeText
    refine List.mem_dedup.mpr (List.mem_append.mpr (Or.inl ?_))
    refine List.mem_map.mpr ⟨t, ?_, rfl⟩
    refine List.mem_filter.mpr ⟨ht, ?_⟩
    rw [isAsciiToken_false_of_cjk hcjk]
    simp

/-- C8, witness: the CJK run `部署到正式環境` of a concrete CJK query is a
raw token and survives into the token set, and the canonical token
`deployment` of the same token set is no stop word and has length at least
2. -/
theorem C8_tokenizer_witness :
    ("deployment" ∉ stopWords ∧ 2 ≤ ("deployment" : String).length) ∧
    String.mk ("請協助部署到正式環境" : String).data ∈ tokenizeText "請協助部署到正式環境" := by
  constructor
  · exact (C8_tokenizer "請協助部署到正式環境").1 "deployment" (by decide) (by decide)
  · exact (C8_tokenizer "請協助部署到正式環境").2 ("請協助部署到正式環境" : String).data
      (by decide) (by decide)

/-! ### Claim C9 -/

theorem spWalk_decisions_inv (fs : String → Option String) (nq : String)
    (allIdx : List Nat) (P : ScheduleDecision → Prop)
    (hP : ∀ (sk : SkillDefinition) (hit : String) (tl : List String),
      triggerHitsFor sk.triggers nq = hit :: tl →
      P { skill := sk, score := min 75 ((hit :: tl).length * 25),
          reasons := ["trigger match (second pass): " ++ hit] }) :
    ∀ (cands : List (Nat × SkillDefinition)) (acc : SPAcc),
      (∀ d ∈ acc.decisions, P d) →
      ∀ d ∈ (spWalk fs nq allIdx cands acc).1.decisions, P d := by
  intro cands
  induction cands with
  | nil => intro acc hacc d hd; exact hacc d hd
  | cons c rest ih =>
      intro acc hacc d hd
      obtain ⟨i, skill⟩ := c
      rw [show spWalk fs nq allIdx ((i, skill) :: rest) acc =
          (if acc.budget = 0 then spStop allIdx acc
           else spWalk fs nq allIdx rest (spProcess fs nq i skill acc)) from by
        simp only [spWalk]] at hd
      by_cases hb : acc.budget = 0
      · rw [if_pos hb] at hd
        exact hacc d hd
      · rw [if_neg hb] at hd
        refine ih (spProcess fs nq i skill acc) ?_ d hd
        intro d2 hd2
        unfold spProcess at hd2
        rcases hhits : triggerHitsFor (loadSkillDetails fs skill).2.triggers nq with - | ⟨hit, tl⟩
        · simp only [hhits] at hd2
          exact hacc d2 hd2
        · simp only [hhits, List.mem_append, List.mem_singleton] at hd2
          rcases hd2 with hd3 | hd3
          · exact hacc d2 hd3
          · subst hd3
            exact hP (loadSkillDetails fs skill).2 hit tl hhits

/-- C9: every decision emitted by the trigger-only second pass is scored
`min(75, 25·hits)` from its own trigger hits against the normalized query
— the alias/keyword rank score (20 per alias hit plus 5 per keyword
overlap) orders the walk but is never added to an emitted score — and an
emitted decision always has at least one trigger hit. -/
theorem C9_secondPassScore :
    ∀ (fs : String → Option String) (skills : List SkillDefinition)
      (taskText : String) (topN readBudget : Nat),
      ∀ d ∈ (triggerOnlySecondPass fs skills taskText topN readBudget).decisions,
        triggerHitsFor d.skill.triggers (normalizePhrase taskText) ≠ [] ∧
        d.score = min 75
          ((triggerHitsFor d.skill.triggers (normalizePhrase taskText)).length * 25) := by
  intro fs skills taskText topN readBudget d hd
  simp only [triggerOnlySecondPass] at hd
  split at hd
  · simp at hd
  · split at hd
    · simp at hd
    · have hd2 := List.mem_of_mem_take hd
      have hd3 := (List.Perm.mem_iff (List.perm_insertionSort decisionLE _)).mp hd2
      refine spWalk_decisions_inv fs (normalizePhrase taskText) _
        (fun d => triggerHitsFor d.skill.triggers (normalizePhrase taskText) ≠ [] ∧
          d.score = min 75
            ((triggerHitsFor d.skill.triggers (normalizePhrase taskText)).length * 25))
        ?_ _ _ (by simp) d hd3
      intro sk hit tl hhits
      constructor
      · simp only [hhits]
        simp
      · simp only [hhits]

/-- C9, witness: the decision emitted by a concrete second pass (one skill
whose trigger `部署到正式環境` occurs in the query) carries exactly one
trigger hit and the score `min(75, 25)`. -/
theorem C9_secondPassScore_witness :
    triggerHitsFor (((triggerOnlySecondPass fsScenC stScenC.skills
        "請協助 how to implement" 5 3).decisions.headD
        ⟨defaultSkill, 0, []⟩).skill.triggers)
      (normalizePhrase "請協助 how to implement") ≠ [] := by
  have hne : (triggerOnlySecondPass fsScenC stScenC.skills
      "請協助 how to implement" 5 3).decisions.length = 1 := by decide
  have hmem : (triggerOnlySecondPass fsScenC stScenC.skills
      "請協助 how to implement" 5 3).decisions.headD ⟨defaultSkill, 0, []⟩ ∈
      (triggerOnlySecondPass fsScenC stScenC.skills
        "請協助 how to implement" 5 3).decisions := by
    rcases hl : (triggerOnlySecondPass fsScenC stScenC.skills
        "請協助 how to implement" 5 3).decisions with - | ⟨a, rest⟩
    · rw [hl] at hne; simp at hne
    · exact List.mem_cons_self ..
  exact (C9_secondPassScore fsScenC stScenC.skills "請協助 how to implement" 5 3 _ hmem).1

/-! ### Claim C2 -/

theorem phase2Step_used_budget (fs : String → Option String) (nq : String)
    (acc : Phase2Acc) (cand : Candidate) :
    (phase2Step fs nq acc cand).used + (phase2Step fs nq acc cand).budget =
      acc.used + acc.budget := by
  unfold phase2Step
  by_cases hb : 0 < acc.budget
  · rw [if_pos hb]
    rcases hld : loadSkillDetails fs cand.skill with ⟨b, sk2⟩
    cases b
    · simp [hld]
    · simp [hld]
      omega
  · rw [if_neg hb]
    by_cases hnl : !cand.skill.details_loaded
    · rw [if_pos hnl]
    · rw [if_neg hnl]

theorem phase2_used_budget (fs : String → Option String) (nq : String) :
    ∀ (cands : List Candidate) (acc : Phase2Acc),
      (cands.foldl (phase2Step fs nq) acc).used +
        (cands.foldl (phase2Step fs nq) acc).budget = acc.used + acc.budget := by
  intro cands
  induction cands with
  | nil => intro acc; rfl
  | cons c rest ih =>
      intro acc
      simp only [List.foldl_cons]
      rw [ih (phase2Step fs nq acc c)]
      exact phase2Step_used_budget fs nq acc c

theorem spProcess_reads_budget (fs : String → Option String) (nq : String)
    (i : Nat) (skill : SkillDefinition) (acc : SPAcc) (hb : acc.budget ≠ 0) :
    (spProcess fs nq i skill acc).reads + (spProcess fs nq i skill acc).budget =
      acc.reads + acc.budget := by
  unfold spProcess
  rcases hld : loadSkillDetails fs skill with ⟨b, sk2⟩
  cases b
  · simp [hld]
  · simp [hld]
    omega

theorem spWalk_reads_budget (fs : String → Option String) (nq : String)
    (allIdx : List Nat) :
    ∀ (cands : List (Nat × SkillDefinition)) (acc : SPAcc),
      (spWalk fs nq allIdx cands acc).1.reads + (spWalk fs nq allIdx cands acc).1.budget =
        acc.reads + acc.budget := by
  intro cands
  induction cands with
  | nil => intro acc; rfl
  | cons c rest ih =>
      intro acc
      obtain ⟨i, skill⟩ := c
      simp only [spWalk]
      by_cases hb : acc.budget = 0
      · rw [if_pos hb]
        rfl
      · rw [if_neg hb]
        rw [ih (spProcess fs nq i skill acc)]
        exact spProcess_reads_budget fs nq i skill acc hb

theorem secondPass_reads_le (fs : String → Option String) (skills : List SkillDefinition)
    (taskText : String) (topN readBudget : Nat) :
    (triggerOnlySecondPass fs skills taskText topN readBudget).reads ≤ readBudget := by
  simp only [triggerOnlySecondPass]
  split
  · simp
  · split
    · simp
    · have h := spWalk_reads_budget fs (normalizePhrase taskText)
        ((rankSecondPassCandidates skills (normalizePhrase taskText)
          (tokenizeText taskText)).map (fun p => p.1))
        (rankSecondPassCandidates skills (normalizePhrase taskText)
          (tokenizeText taskText))
        ⟨skills, readBudget, 0, []⟩
      simp only at h ⊢
      omega

/-- C2: after every `schedule` call, the stored diagnostics snapshot
satisfies `detailed_reads_used ≤ max_detailed_reads`, and whenever the
total skipped-due-to-limit count is positive the computed
`guardrail_triggered` flag is true. -/
theorem C2_guardrail :
    ∀ (fs : String → Option String) (st : SchedulerState) (taskText : String) (topN : Nat),
      (schedule fs st taskText topN).diagnostics.detailed_reads_used ≤
        (schedule fs st taskText topN).diagnostics.max_detailed_reads ∧
      (0 < (schedule fs st taskText topN).diagnostics.skippedTotal →
        (schedule fs st taskText topN).diagnostics.guardrailTriggered = true) := by
  intro fs st taskText topN
  refine ⟨?_, fun h => decide_eq_true h⟩
  rcases hs : schedule fs st taskText topN with ⟨ds, diag, sks⟩
  simp only [schedule] at hs
  split at hs
  · injection hs with h1 h2 h3
    subst h2
    simp [emptyDiagnostics]
  · split at hs
    · injection hs with h1 h2 h3
      subst h2
      simp only
      have h := phase2_used_budget fs (normalizePhrase taskText)
        (List.insertionSort candLE
          (phase1Candidates st.route_hints (pyLower taskText)
            (tokenizeText taskText) st.skills))
        ⟨st.skills, st.max_detailed_reads, 0, 0, [], []⟩
      simp only at h
      omega
    · have h := phase2_used_budget fs (normalizePhrase taskText)
        (List.insertionSort candLE
          (phase1Candidates st.route_hints (pyLower taskText)
            (tokenizeText taskText) st.skills))
        ⟨st.skills, st.max_detailed_reads, 0, 0, [], []⟩
      simp only at h
      have h2 := secondPass_reads_le fs
        ((List.insertionSort candLE
          (phase1Candidates st.route_hints (pyLower taskText)
            (tokenizeText taskText) st.skills)).foldl
            (phase2Step fs (normalizePhrase taskText))
            ⟨st.skills, st.max_detailed_reads, 0, 0, [], []⟩).skills
        taskText topN
        ((List.insertionSort candLE
          (phase1Candidates st.route_hints (pyLower taskText)
            (tokenizeText taskText) st.skills)).foldl
            (phase2Step fs (normalizePhrase taskText))
            ⟨st.skills, st.max_detailed_reads, 0, 0, [], []⟩).budget
      split at hs
      · injection hs with h1 h2x h3
        subst h2x
        simp only
        omega
      · injection hs with h1 h2x h3
        subst h2x
        simp only
        omega

/-- C2, witness: the concrete budget scenario (4 matching skills, budget
2) satisfies the bound and triggers the guardrail. -/
theorem C2_guardrail_witness :
    (schedule fsBud stBud "Please deploy to production" 5).diagnostics.detailed_reads_used ≤
      (schedule fsBud stBud "Please deploy to production" 5).diagnostics.max_detailed_reads ∧
    (schedule fsBud stBud "Please deploy to production" 5).diagnostics.guardrailTriggered = true := by
  refine ⟨(C2_guardrail fsBud stBud "Please deploy to production" 5).1, ?_⟩
  exact (C2_guardrail fsBud stBud "Please deploy to production" 5).2 (by decide)

/-! ### Claim C10 -/

theorem phase1Eval_nil_reasons (hints : List RouteHint) (query : String)
    (queryTokens : List String) (skill : SkillDefinition)
    (h : (phase1Eval hints query queryTokens skill).2 = []) :
    (phase1Eval hints query queryTokens skill).1 = 0 := by
  simp only [phase1Eval] at h ⊢
  rcases List.append_eq_nil.mp h with ⟨h12, h3⟩
  rcases List.append_eq_nil.mp h12 with ⟨h1, h2⟩
  by_cases hA : sortedStrings (skill.aliases.filter (fun al =>
      decide (3 ≤ al.length) && strIn al query)) = []
  · by_cases hB : sortedStrings (setInter queryTokens skill.keywords) ≠ []
    · rw [if_pos hB] at h2
      exact absurd h2 (by simp)
    · by_cases hC : (hints.find? (fun hint =>
          queryTokens.any (fun t => hint.keywords.contains t) &&
          hint.skill_refs.any (fun ref => refMatchesSkill ref skill))).isSome
      · obtain ⟨hint, hhint⟩ := Option.isSome_iff_exists.mp hC
        rw [hhint] at h3
        exact absurd h3 (by simp)
      · rw [Option.not_isSome_iff_eq_none] at hC
        rw [hA, hC, if_neg hB]
        simp
  · obtain ⟨hit, tl, hA2⟩ := List.exists_cons_of_ne_nil hA
    rw [hA2] at h1
    exact absurd h1 (by simp)

theorem phase1Candidates_facts (hints : List RouteHint) (query : String)
    (queryTokens : List String) (skills : List SkillDefinition) :
    ∀ cand ∈ phase1Candidates hints query queryTokens skills,
      1 ≤ cand.score ∧ cand.reasons ≠ [] := by
  intro cand hc
  unfold phase1Candidates at hc
  obtain ⟨p, hp, hsome⟩ := List.mem_filterMap.mp hc
  by_cases hpos : 0 < (phase1Eval hints query queryTokens p.2).1
  · rw [if_pos hpos] at hsome
    rw [Option.some.injEq] at hsome
    subst hsome
    refine ⟨hpos, fun hre => ?_⟩
    have := phase1Eval_nil_reasons hints query queryTokens p.2 hre
    omega
  · rw [if_neg hpos] at hsome
    exact absurd hsome (by simp)

theorem phase2_decisions_inv (fs : String → Option String) (nq : String) :
    ∀ (cands : List Candidate) (acc : Phase2Acc),
      (∀ d ∈ acc.decisions, 1 ≤ d.score ∧ d.reasons ≠ []) →
      (∀ cand ∈ cands, 1 ≤ cand.score ∧ cand.reasons ≠ []) →
      ∀ d ∈ (cands.foldl (phase2Step fs nq) acc).decisions,
        1 ≤ d.score ∧ d.reasons ≠ [] := by
  intro cands
  induction cands with
  | nil => intro acc hacc _ d hd; exact hacc d hd
  | cons c rest ih =>
      intro acc hacc hcands d hd
      simp only [List.foldl_cons] at hd
      refine ih (phase2Step fs nq acc c) ?_
        (fun cand hcand => hcands cand (List.mem_cons_of_mem _ hcand)) d hd
      intro d2 hd2
      have hc := hcands c (List.mem_cons_self ..)
      unfold phase2Step at hd2
      by_cases hb : 0 < acc.budget
      · rw [if_pos hb] at hd2
        rcases hhits : triggerHitsFor (loadSkillDetails fs c.skill).2.triggers nq
          with - | ⟨hit, tl⟩
        · simp only [hhits, List.mem_append, List.mem_singleton] at hd2
          rcases hd2 with hd3 | hd3
          · exact hacc d2 hd3
          · subst hd3
            exact hc
        · simp only [hhits, List.mem_append, List.mem_singleton] at hd2
          rcases hd2 with hd3 | hd3
          · exact hacc d2 hd3
          · subst hd3
            refine ⟨by have := hc.1; simp; omega, ?_⟩
            have := hc.2
            simp
      · rw [if_neg hb] at hd2
        by_cases hnl : !c.skill.details_loaded
        · rw [if_pos hnl] at hd2
          simp only [List.mem_append, List.mem_singleton] at hd2
          rcases hd2 with hd3 | hd3
          · exact hacc d2 hd3
          · subst hd3
            exact hc
        · rw [if_neg hnl] at hd2
          simp only [List.mem_append, List.mem_singleton] at hd2
          rcases hd2 with hd3 | hd3
          · exact hacc d2 hd3
          · subst hd3
            exact hc

theorem secondPass_decisions_inv (fs : String → Option String)
    (skills : List SkillDefinition) (taskText : String) (topN readBudget : Nat)
    (P : ScheduleDecision → Prop)
    (hP : ∀ (sk : SkillDefinition) (hit : String) (tl : List String),
      triggerHitsFor sk.triggers (normalizePhrase taskText) = hit :: tl →
      P { skill := sk, score := min 75 ((hit :: tl).length * 25),
          reasons := ["trigger match (second pass): " ++ hit] }) :
    ∀ d ∈ (triggerOnlySecondPass fs skills taskText topN readBudget).decisions, P d := by
  intro d hd
  simp only [triggerOnlySecondPass] at hd
  split at hd
  · simp at hd
  · split at hd
    · simp at hd
    · have hd2 := List.mem_of_mem_take hd
      have hd3 := (List.Perm.mem_iff (List.perm_insertionSort decisionLE _)).mp hd2
      exact spWalk_decisions_inv fs (normalizePhrase taskText) _ P hP _ _ (by simp) d hd3

/-- C10: every decision returned by any `schedule` call — through Phase 2,
the second pass, or the fallback — has a score of at least 1 and a
non-empty reasons list. -/
theorem C10_decisions :
    ∀ (fs : String → Option String) (st : SchedulerState) (taskText : String) (topN : Nat),
      ∀ d ∈ (schedule fs st taskText topN).decisions,
        1 ≤ d.score ∧ d.reasons ≠ [] := by
  intro fs st taskText topN d hd
  rcases hs : schedule fs st taskText topN with ⟨ds, diag, sks⟩
  rw [hs] at hd
  simp only at hd
  simp only [schedule] at hs
  split at hs
  · injection hs with h1 h2 h3
    subst h1
    simp at hd
  · split at hs
    · injection hs with h1 h2 h3
      subst h1
      have hd2 := (List.Perm.mem_iff (List.perm_insertionSort decisionLE _)).mp
        (List.mem_of_mem_take hd)
      refine phase2_decisions_inv fs (normalizePhrase taskText) _ _ (by simp) ?_ d hd2
      intro cand hcand
      exact phase1Candidates_facts st.route_hints (pyLower taskText)
        (tokenizeText taskText) st.skills cand
        ((List.Perm.mem_iff (List.perm_insertionSort candLE _)).mp hcand)
    · split at hs
      · injection hs with h1 h2 h3
        subst h1
        refine secondPass_decisions_inv fs _ taskText topN _
          (fun d => 1 ≤ d.score ∧ d.reasons ≠ []) ?_ d hd
        intro sk hit tl hhits
        refine ⟨by simp; omega, by simp⟩
      · injection hs with h1 h2 h3
        subst h1
        have hfb := fallbackGo_shape _ fallbackDefaults [] d (List.mem_of_mem_take hd)
        refine ⟨by rw [hfb.1], by rw [hfb.2.1]; simp⟩

/-- C10, witness: the first decision of the concrete fallback-scenario
call has positive score and non-empty reasons. -/
theorem C10_decisions_witness :
    1 ≤ ((schedule fsScenC stScenC "random text without known keywords" 5).decisions.headD
        ⟨defaultSkill, 0, []⟩).score ∧
    ((schedule fsScenC stScenC "random text without known keywords" 5).decisions.headD
        ⟨defaultSkill, 0, []⟩).reasons ≠ [] :=
  C10_decisions fsScenC stScenC "random text without known keywords" 5
    ((schedule fsScenC stScenC "random text without known keywords" 5).decisions.headD
      ⟨defaultSkill, 0, []⟩) (by decide)

/-! ### Claim C4 -/

theorem loadSkillDetails_success {fs : String → Option String} {skill : SkillDefinition}
    (h1 : skill.details_loaded = false) (h2 : (fs skill.path).isSome = true) :
    (loadSkillDetails fs skill).1 = true ∧
    (loadSkillDetails fs skill).2.details_loaded = true ∧
    (loadSkillDetails fs skill).2.identifier = skill.identifier := by
  unfold loadSkillDetails
  rw [if_neg (by rw [h1]; exact Bool.false_ne_true)]
  rcases hfs : fs skill.path with - | content
  · rw [hfs] at h2; simp at h2
  · exact ⟨rfl, rfl, rfl⟩

theorem myGetD_set_ne (l : List SkillDefinition) (i j : Nat) (a : SkillDefinition)
    (h : i ≠ j) : (l.set i a).getD j defaultSkill = l.getD j defaultSkill := by
  simp [List.getD_eq_getElem?_getD, List.getElem?_set_ne h]

theorem count_loaded_set :
    ∀ (l : List SkillDefinition) (i : Nat), i < l.length →
      (l.getD i defaultSkill).details_loaded = false →
      ∀ x : SkillDefinition, x.details_loaded = true →
      ((l.set i x).filter (fun s => s.details_loaded)).length =
        (l.filter (fun s => s.details_loaded)).length + 1 := by
  intro l
  induction l with
  | nil => intro i hi; simp at hi
  | cons a rest ih =>
      intro i hi hold x hx
      cases i with
      | zero =>
          simp only [List.getD_cons_zero] at hold
          simp [List.filter_cons, hold, hx]
      | succ i =>
          simp only [List.getD_cons_succ] at hold
          simp only [List.length_cons] at hi
          have hih := ih i (by omega) hold x hx
          by_cases ha : a.details_loaded
          · simp [List.filter_cons, ha, hih]
          · simp [List.filter_cons, ha, hih]

theorem phase2Step_pos {fs : String → Option String} {nq : String} {acc : Phase2Acc}
    {c : Candidate} (hb : 0 < acc.budget) (h1 : c.skill.details_loaded = false)
    (h2 : (fs c.skill.path).isSome = true) :
    ∃ d : ScheduleDecision, d.skill = (loadSkillDetails fs c.skill).2 ∧
      phase2Step fs nq acc c =
        ⟨acc.skills.set c.idx (loadSkillDetails fs c.skill).2,
          acc.budget - 1, acc.used + 1, acc.unread, acc.skipped,
          acc.decisions ++ [d]⟩ := by
  have hsucc := loadSkillDetails_success h1 h2
  unfold phase2Step
  rw [if_pos hb]
  rcases hhits : triggerHitsFor (loadSkillDetails fs c.skill).2.triggers nq
    with - | ⟨hit, tl⟩
  · refine ⟨{ skill := (loadSkillDetails fs c.skill).2, score := c.score,
              reasons := c.reasons }, rfl, ?_⟩
    simp [hhits, hsucc.1]
  · refine ⟨{ skill := (loadSkillDetails fs c.skill).2,
              score := c.score + min 75 ((hit :: tl).length * 25),
              reasons := c.reasons ++ ["trigger match: " ++ hit] }, rfl, ?_⟩
    simp [hhits, hsucc.1]

theorem phase2Step_zero {fs : String → Option String} {nq : String} {acc : Phase2Acc}
    {c : Candidate} (hb : acc.budget = 0) (h1 : c.skill.details_loaded = false) :
    phase2Step fs nq acc c =
      ⟨acc.skills, acc.budget, acc.used, acc.unread + 1,
        (if acc.skipped.length < 8 then acc.skipped ++ [c.skill.identifier]
         else acc.skipped),
        acc.decisions ++ [⟨c.skill, c.score, c.reasons⟩]⟩ := by
  unfold phase2Step
  rw [if_neg (by omega), if_pos (by rw [h1]; rfl)]

theorem mem_enumFrom_facts {α : Type} {p : Nat × α} :
    ∀ (n : Nat) (l : List α), p ∈ l.enumFrom n →
      n ≤ p.1 ∧ p.1 - n < l.length ∧ ∀ dflt : α, l.getD (p.1 - n) dflt = p.2 := by
  intro n l
  induction l generalizing n with
  | nil => intro h; simp [List.enumFrom] at h
  | cons a rest ih =>
      intro h
      simp only [List.enumFrom] at h
      rcases List.mem_cons.mp h with h2 | h2
      · subst h2
        simp
      · obtain ⟨hn, hlen, hget⟩ := ih (n + 1) h2
        refine ⟨by omega, by simp; omega, ?_⟩
        intro dflt
        have hp1 : p.1 - n = (p.1 - (n + 1)) + 1 := by omega
        rw [hp1, List.getD_cons_succ]
        exact hget dflt

theorem mem_enum_facts {α : Type} {p : Nat × α} {l : List α} (h : p ∈ l.enum) :
    p.1 < l.length ∧ ∀ dflt : α, l.getD p.1 dflt = p.2 := by
  obtain ⟨-, hlen, hget⟩ := mem_enumFrom_facts 0 l h
  rw [Nat.sub_zero] at hlen
  refine ⟨hlen, fun dflt => ?_⟩
  have := hget dflt
  rw [Nat.sub_zero] at this
  exact this

theorem exists_enumFrom_of_mem {α : Type} {a : α} :
    ∀ (n : Nat) (l : List α), a ∈ l → ∃ i, (i, a) ∈ l.enumFrom n := by
  intro n l
  induction l generalizing n with
  | nil => intro h; simp at h
  | cons b rest ih =>
      intro h
      rcases List.mem_cons.mp h with h2 | h2
      · subst h2
        exact ⟨n, by simp [List.enumFrom]⟩
      · obtain ⟨i, hi⟩ := ih (n + 1) h2
        exact ⟨i, by simp [List.enumFrom]; right; exact hi⟩

theorem myGetD_mem {α : Type} {l : List α} {i : Nat} {dflt : α} (h : i < l.length) :
    l.getD i dflt ∈ l := by
  rw [List.getD_eq_getElem?_getD, List.getElem?_eq_getElem h]
  exact List.getElem_mem ..

theorem length_filterMap_of_all_some {α β : Type} (f : α → Option β) :
    ∀ l : List α, (∀ a ∈ l, (f a).isSome = true) → (l.filterMap f).length = l.length := by
  intro l
  induction l with
  | nil => intro h; rfl
  | cons a rest ih =>
      intro h
      rcases hfa : f a with - | b
      · have := h a (List.mem_cons_self ..)
        rw [hfa] at this
        simp at this
      · rw [List.filterMap_cons, hfa]
        simp only [List.length_cons]
        rw [ih (fun x hx => h x (List.mem_cons_of_mem _ hx))]

theorem filterMap_enumFrom_idx_nodup {α : Type} (f : Nat × α → Option Candidate)
    (hf : ∀ p c, f p = some c → c.idx = p.1) :
    ∀ (n : Nat) (l : List α),
      ((((l.enumFrom n).filterMap f).map (fun c => c.idx)).Nodup) ∧
      ∀ x ∈ (((l.enumFrom n).filterMap f).map (fun c => c.idx)), n ≤ x := by
  intro n l
  induction l generalizing n with
  | nil => simp [List.enumFrom]
  | cons a rest ih =>
      simp only [List.enumFrom, List.filterMap_cons]
      rcases hfa : f (n, a) with - | c
      · obtain ⟨ihn, ihge⟩ := ih (n + 1)
        exact ⟨ihn, fun x hx => by have := ihge x hx; omega⟩
      · obtain ⟨ihn, ihge⟩ := ih (n + 1)
        have hidx : c.idx = n := hf (n, a) c hfa
        simp only [List.map_cons, List.nodup_cons]
        refine ⟨⟨fun hmem => ?_, ihn⟩, ?_⟩
        · have := ihge c.idx hmem
          omega
        · intro x hx
          rcases List.mem_cons.mp hx with h2 | h2
          · omega
          · have := ihge x h2
            omega

theorem phase1Candidates_char (hints : List RouteHint) (query : String)
    (queryTokens : List String) (skills : List SkillDefinition) :
    ∀ c ∈ phase1Candidates hints query queryTokens skills,
      c.skill ∈ skills ∧
      c.score = (phase1Eval hints query queryTokens c.skill).1 ∧
      c.idx < skills.length ∧ skills.getD c.idx defaultSkill = c.skill := by
  intro c hc
  unfold phase1Candidates at hc
  obtain ⟨p, hp, hsome⟩ := List.mem_filterMap.mp hc
  obtain ⟨hlen, hget⟩ := mem_enum_facts hp
  by_cases hpos : 0 < (phase1Eval hints query queryTokens p.2).1
  · rw [if_pos hpos, Option.some.injEq] at hsome
    subst hsome
    have hmem : p.2 ∈ skills := by
      rw [← hget defaultSkill]
      exact myGetD_mem hlen
    exact ⟨hmem, rfl, hlen, hget defaultSkill⟩
  · rw [if_neg hpos] at hsome
    exact absurd hsome (by simp)

theorem phase1Candidates_idx_nodup (hints : List RouteHint) (query : String)
    (queryTokens : List String) (skills : List SkillDefinition) :
    ((phase1Candidates hints query queryTokens skills).map (fun c => c.idx)).Nodup := by
  unfold phase1Candidates
  refine (filterMap_enumFrom_idx_nodup _ ?_ 0 skills).1
  intro p c h
  by_cases hpos : 0 < (phase1Eval hints query queryTokens p.2).1
  · rw [if_pos hpos, Option.some.injEq] at h
    subst h
    rfl
  · rw [if_neg hpos] at h
    exact absurd h (by simp)

theorem phase1Candidates_length (hints : List RouteHint) (query : String)
    (queryTokens : List String) (skills : List SkillDefinition)
    (hall : ∀ sk ∈ skills, 0 < (phase1Eval hints query queryTokens sk).1) :
    (phase1Candidates hints query queryTokens skills).length = skills.length := by
  unfold phase1Candidates
  rw [length_filterMap_of_all_some _ _ ?_]
  · exact List.enum_length
  · intro p hp
    obtain ⟨hlen, hget⟩ := mem_enum_facts hp
    have hmem : p.2 ∈ skills := by
      rw [← hget defaultSkill]
      exact myGetD_mem hlen
    rw [if_pos (hall p.2 hmem)]
    rfl

theorem phase1Candidates_covers (hints : List RouteHint) (query : String)
    (queryTokens : List String) (skills : List SkillDefinition)
    (hall : ∀ sk ∈ skills, 0 < (phase1Eval hints query queryTokens sk).1) :
    ∀ sk ∈ skills, ∃ c ∈ phase1Candidates hints query queryTokens skills,
      c.skill = sk := by
  intro sk hsk
  obtain ⟨i, hi⟩ := exists_enumFrom_of_mem 0 skills hsk
  refine ⟨⟨i, sk, (phase1Eval hints query queryTokens sk).1,
    (phase1Eval hints query queryTokens sk).2⟩, ?_, rfl⟩
  unfold phase1Candidates
  refine List.mem_filterMap.mpr ⟨(i, sk), hi, ?_⟩
  rw [if_pos (hall sk hsk)]

theorem phase2_run (fs : String → Option String) (nq : String) :
    ∀ (cands : List Candidate) (acc : Phase2Acc),
      (∀ c ∈ cands, c.skill.details_loaded = false) →
      (∀ c ∈ cands, (fs c.skill.path).isSome = true) →
      (∀ c ∈ cands, c.idx < acc.skills.length ∧
        acc.skills.getD c.idx defaultSkill = c.skill) →
      ((cands.map (fun c => c.idx)).Nodup) →
      (cands.foldl (phase2Step fs nq) acc).used = acc.used + min acc.budget cands.length ∧
      (cands.foldl (phase2Step fs nq) acc).budget = acc.budget - cands.length ∧
      (cands.foldl (phase2Step fs nq) acc).unread =
        acc.unread + (cands.length - acc.budget) ∧
      (cands.foldl (phase2Step fs nq) acc).skills.length = acc.skills.length ∧
      ((cands.foldl (phase2Step fs nq) acc).skills.filter
          (fun s => s.details_loaded)).length =
        (acc.skills.filter (fun s => s.details_loaded)).length +
          min acc.budget cands.length ∧
      ∃ newDecs : List ScheduleDecision,
        (cands.foldl (phase2Step fs nq) acc).decisions = acc.decisions ++ newDecs ∧
        newDecs.length = cands.length ∧
        (∀ c ∈ cands, ∃ d ∈ newDecs, d.skill.identifier = c.skill.identifier) ∧
        (∀ d ∈ newDecs, d.skill.details_loaded = false →
          ∃ c ∈ cands, d.skill = c.skill ∧ d.score = c.score) ∧
        (newDecs.filter (fun d => !d.skill.details_loaded)).length =
          cands.length - acc.budget := by
  intro cands
  induction cands with
  | nil =>
      intro acc h1 h2 h3 h4
      refine ⟨by simp, by simp, by simp, rfl, by simp, [], by simp, rfl, ?_, ?_, ?_⟩
      · intro c hc; simp at hc
      · intro d hd; simp at hd
      · simp
  | cons c rest ih =>
      intro acc h1 h2 h3 h4
      have hc1 := h1 c (List.mem_cons_self ..)
      have hc2 := h2 c (List.mem_cons_self ..)
      have hc3 := h3 c (List.mem_cons_self ..)
      simp only [List.map_cons, List.nodup_cons] at h4
      obtain ⟨hcnodup, htnodup⟩ := h4
      simp only [List.foldl_cons, List.length_cons]
      by_cases hb : acc.budget = 0
      · have hstep := @phase2Step_zero fs nq acc c hb hc1
        have hsk : (phase2Step fs nq acc c).skills = acc.skills := by rw [hstep]
        have hbud : (phase2Step fs nq acc c).budget = acc.budget := by rw [hstep]
        have hus : (phase2Step fs nq acc c).used = acc.used := by rw [hstep]
        have hun : (phase2Step fs nq acc c).unread = acc.unread + 1 := by rw [hstep]
        have hdc : (phase2Step fs nq acc c).decisions =
            acc.decisions ++ [⟨c.skill, c.score, c.reasons⟩] := by rw [hstep]
        obtain ⟨ihu, ihb, ihn, ihl, ihcount, newDecs, ihdec, ihdlen, ihcover, ihkeep, ihucount⟩ :=
          ih (phase2Step fs nq acc c)
            (fun x hx => h1 x (List.mem_cons_of_mem _ hx))
            (fun x hx => h2 x (List.mem_cons_of_mem _ hx))
            (fun x hx => by
              have hx3 := h3 x (List.mem_cons_of_mem _ hx)
              rw [hsk]
              exact hx3)
            htnodup
        refine ⟨by rw [ihu, hus, hbud, hb]; simp,
          by rw [ihb, hbud]; omega,
          by rw [ihn, hun, hbud]; omega,
          by rw [ihl, hsk],
          by rw [ihcount, hsk, hbud, hb]; simp,
          ⟨c.skill, c.score, c.reasons⟩ :: newDecs, ?_, by simp [ihdlen], ?_, ?_, ?_⟩
        · rw [ihdec, hdc]
          simp
        · intro x hx
          rcases List.mem_cons.mp hx with h5 | h5
          · subst h5
            exact ⟨_, List.mem_cons_self .., rfl⟩
          · obtain ⟨d, hd, hdid⟩ := ihcover x h5
            exact ⟨d, List.mem_cons_of_mem _ hd, hdid⟩
        · intro d hd hdl
          rcases List.mem_cons.mp hd with h5 | h5
          · subst h5
            exact ⟨c, List.mem_cons_self .., rfl, rfl⟩
          · obtain ⟨x, hx, hxs, hxsc⟩ := ihkeep d h5 hdl
            exact ⟨x, List.mem_cons_of_mem _ hx, hxs, hxsc⟩
        · have h6 : ((⟨c.skill, c.score, c.reasons⟩ : ScheduleDecision) :: newDecs).filter
              (fun d => !d.skill.details_loaded) =
              (⟨c.skill, c.score, c.reasons⟩ : ScheduleDecision) ::
                newDecs.filter (fun d => !d.skill.details_loaded) := by
            rw [List.filter_cons]
            simp [hc1]
          rw [h6, List.length_cons, ihucount, hbud]
          omega
      · have hbpos : 0 < acc.budget := by omega
        obtain ⟨d0, hd0skill, hstep⟩ := phase2Step_pos hbpos hc1 hc2
        have hsucc := loadSkillDetails_success hc1 hc2
        have hsk : (phase2Step fs nq acc c).skills =
            acc.skills.set c.idx (loadSkillDetails fs c.skill).2 := by rw [hstep]
        have hbud : (phase2Step fs nq acc c).budget = acc.budget - 1 := by rw [hstep]
        have hus : (phase2Step fs nq acc c).used = acc.used + 1 := by rw [hstep]
        have hun : (phase2Step fs nq acc c).unread = acc.unread := by rw [hstep]
        have hdc : (phase2Step fs nq acc c).decisions = acc.decisions ++ [d0] := by
          rw [hstep]
        obtain ⟨ihu, ihb, ihn, ihl, ihcount, newDecs, ihdec, ihdlen, ihcover, ihkeep, ihucount⟩ :=
          ih (phase2Step fs nq acc c)
            (fun x hx => h1 x (List.mem_cons_of_mem _ hx))
            (fun x hx => h2 x (List.mem_cons_of_mem _ hx))
            (fun x hx => by
              have hx3 := h3 x (List.mem_cons_of_mem _ hx)
              rw [hsk]
              refine ⟨by simp only [List.length_set]; exact hx3.1, ?_⟩
              have hne : c.idx ≠ x.idx := by
                intro heq
                exact hcnodup (heq ▸ List.mem_map.mpr ⟨x, hx, rfl⟩)
              rw [myGetD_set_ne _ _ _ _ hne]
              exact hx3.2)
            htnodup
        refine ⟨by rw [ihu, hus, hbud]; omega,
          by rw [ihb, hbud]; omega,
          by rw [ihn, hun, hbud]; omega,
          by rw [ihl, hsk]; simp,
          ?_,
          d0 :: newDecs, ?_, by simp [ihdlen], ?_, ?_, ?_⟩
        · rw [ihcount, hsk, hbud]
          rw [count_loaded_set acc.skills c.idx hc3.1 (by rw [hc3.2]; exact hc1)
            (loadSkillDetails fs c.skill).2 hsucc.2.1]
          omega
        · rw [ihdec, hdc]
          simp
        · intro x hx
          rcases List.mem_cons.mp hx with h5 | h5
          · subst h5
            refine ⟨d0, List.mem_cons_self .., ?_⟩
            rw [hd0skill]
            exact hsucc.2.2
          · obtain ⟨d, hd, hdid⟩ := ihcover x h5
            exact ⟨d, List.mem_cons_of_mem _ hd, hdid⟩
        · intro d hd hdl
          rcases List.mem_cons.mp hd with h5 | h5
          · subst h5
            rw [hd0skill] at hdl
            rw [hsucc.2.1] at hdl
            exact absurd hdl (by simp)
          · obtain ⟨x, hx, hxs, hxsc⟩ := ihkeep d h5 hdl
            exact ⟨x, List.mem_cons_of_mem _ hx, hxs, hxsc⟩
        · have hd0l : d0.skill.details_loaded = true := by
            rw [hd0skill]; exact hsucc.2.1
          have h6 : (d0 :: newDecs).filter (fun d => !d.skill.details_loaded) =
              newDecs.filter (fun d => !d.skill.details_loaded) := by
            rw [List.filter_cons]
            simp [hd0l]
          rw [h6, ihucount, hbud]
          omega

/-- C4: with a registry of four unloaded, readable skills that all earn a
positive Phase-1 score and a read budget of 2, one schedule call with
`topN ≥ 4` loads details for exactly two skills, reports
`detailed_reads_used = 2` and an active guardrail, and returns all four
candidates as decisions, the two skipped ones keeping their Phase-1
score. -/
theorem C4_budgetScenario (fs : String → Option String) (st : SchedulerState)
    (taskText : String) (topN : Nat)
    (hlen : st.skills.length = 4)
    (hbud : st.max_detailed_reads = 2)
    (htop : 4 ≤ topN)
    (hne : ¬ pyStripStr taskText = "")
    (hunl : ∀ sk ∈ st.skills, sk.details_loaded = false)
    (hread : ∀ sk ∈ st.skills, (fs sk.path).isSome = true)
    (hpos : ∀ sk ∈ st.skills,
      0 < (phase1Eval st.route_hints (pyLower taskText) (tokenizeText taskText) sk).1) :
    ((schedule fs st taskText topN).skills.filter
        (fun s => s.details_loaded)).length = 2 ∧
    (schedule fs st taskText topN).diagnostics.detailed_reads_used = 2 ∧
    (schedule fs st taskText topN).diagnostics.guardrailTriggered = true ∧
    (schedule fs st taskText topN).decisions.length = 4 ∧
    (∀ sk ∈ st.skills, ∃ d ∈ (schedule fs st taskText topN).decisions,
      d.skill.identifier = sk.identifier) ∧
    (∀ d ∈ (schedule fs st taskText topN).decisions, d.skill.details_loaded = false →
      ∃ sk ∈ st.skills, d.skill = sk ∧
        d.score = (phase1Eval st.route_hints (pyLower taskText)
          (tokenizeText taskText) sk).1) ∧
    ((schedule fs st taskText topN).decisions.filter
        (fun d => !d.skill.details_loaded)).length = 2 := by
  set CND := phase1Candidates st.route_hints (pyLower taskText)
    (tokenizeText taskText) st.skills with hCND
  set P := List.insertionSort candLE CND with hP2
  set A := P.foldl (phase2Step fs (normalizePhrase taskText))
    ⟨st.skills, st.max_detailed_reads, 0, 0, [], []⟩ with hA2
  set D := List.insertionSort decisionLE A.decisions with hD2
  have hCchar : ∀ c ∈ CND, c.skill ∈ st.skills ∧
      c.score = (phase1Eval st.route_hints (pyLower taskText)
        (tokenizeText taskText) c.skill).1 ∧
      c.idx < st.skills.length ∧ st.skills.getD c.idx defaultSkill = c.skill := by
    rw [hCND]
    exact phase1Candidates_char st.route_hints (pyLower taskText)
      (tokenizeText taskText) st.skills
  have hClen : CND.length = 4 := by
    rw [hCND]
    rw [phase1Candidates_length st.route_hints (pyLower taskText)
      (tokenizeText taskText) st.skills hpos]
    exact hlen
  have hCnodup : (CND.map (fun c => c.idx)).Nodup := by
    rw [hCND]
    exact phase1Candidates_idx_nodup st.route_hints (pyLower taskText)
      (tokenizeText taskText) st.skills
  have hCcov : ∀ sk ∈ st.skills, ∃ c ∈ CND, c.skill = sk := by
    rw [hCND]
    exact phase1Candidates_covers st.route_hints (pyLower taskText)
      (tokenizeText taskText) st.skills hpos
  have hpermP : P.Perm CND := by
    rw [hP2]
    exact List.perm_insertionSort candLE CND
  have hPlen : P.length = 4 := by
    rw [hpermP.length_eq]
    exact hClen
  have h1 : ∀ c ∈ P, c.skill.details_loaded = false := fun c hc =>
    hunl c.skill ((hCchar c (hpermP.mem_iff.mp hc)).1)
  have h2 : ∀ c ∈ P, (fs c.skill.path).isSome = true := fun c hc =>
    hread c.skill ((hCchar c (hpermP.mem_iff.mp hc)).1)
  have h3 : ∀ c ∈ P, c.idx < st.skills.length ∧
      st.skills.getD c.idx defaultSkill = c.skill := fun c hc =>
    ⟨(hCchar c (hpermP.mem_iff.mp hc)).2.2.1, (hCchar c (hpermP.mem_iff.mp hc)).2.2.2⟩
  have h4 : (P.map (fun c => c.idx)).Nodup :=
    (hpermP.map (fun c => c.idx)).nodup_iff.mpr hCnodup
  obtain ⟨hu, hb, hn, hl, hcount, newDecs, hdec, hdlen, hcover, hkeep, hucount⟩ :=
    phase2_run fs (normalizePhrase taskText) P
      ⟨st.skills, st.max_detailed_reads, 0, 0, [], []⟩ h1 h2 h3 h4
  have e1 : (⟨st.skills, st.max_detailed_reads, 0, 0, [], []⟩ : Phase2Acc).used = 0 := rfl
  have e2 : (⟨st.skills, st.max_detailed_reads, 0, 0, [], []⟩ : Phase2Acc).budget =
      st.max_detailed_reads := rfl
  have e3 : (⟨st.skills, st.max_detailed_reads, 0, 0, [], []⟩ : Phase2Acc).unread = 0 := rfl
  have e4 : (⟨st.skills, st.max_detailed_reads, 0, 0, [], []⟩ : Phase2Acc).skills =
      st.skills := rfl
  have e5 : (⟨st.skills, st.max_detailed_reads, 0, 0, [], []⟩ : Phase2Acc).decisions =
      ([] : List ScheduleDecision) := rfl
  have hinit : st.skills.filter (fun s => s.details_loaded) = [] :=
    List.filter_eq_nil_iff.mpr (fun sk hsk => by simp [hunl sk hsk])
  have hused : A.used = 2 := by
    rw [hA2, hu, e1, e2, hPlen, hbud]
    decide
  have hunr : A.unread = 2 := by
    rw [hA2, hn, e3, e2, hPlen, hbud]
  have hloaded : (A.skills.filter (fun s => s.details_loaded)).length = 2 := by
    rw [hA2, hcount, e4, hinit, e2, hPlen, hbud]
    decide
  have hdecs : A.decisions = newDecs := by
    rw [hA2, hdec, e5]
    simp
  have hdnlen : newDecs.length = 4 := by
    rw [hdlen, hPlen]
  have hpermD : D.Perm A.decisions := by
    rw [hD2]
    exact List.perm_insertionSort decisionLE A.decisions
  have hDlen : D.length = 4 := by
    rw [hpermD.length_eq, hdecs, hdnlen]
  have hDne : D ≠ [] := by
    intro h0
    rw [h0] at hDlen
    exact absurd hDlen (by decide)
  have hucount2 : (newDecs.filter (fun d => !d.skill.details_loaded)).length = 2 := by
    rw [hucount, hPlen, e2, hbud]
  have hDcov : ∀ sk ∈ st.skills, ∃ d ∈ D, d.skill.identifier = sk.identifier := by
    intro sk hsk
    obtain ⟨c, hcC, hcsk⟩ := hCcov sk hsk
    obtain ⟨d, hdN, hdid⟩ := hcover c (hpermP.mem_iff.mpr hcC)
    refine ⟨d, ?_, ?_⟩
    · apply hpermD.mem_iff.mpr
      rw [hdecs]
      exact hdN
    · rw [hdid, hcsk]
  have hDkeep : ∀ d ∈ D, d.skill.details_loaded = false →
      ∃ sk ∈ st.skills, d.skill = sk ∧
        d.score = (phase1Eval st.route_hints (pyLower taskText)
          (tokenizeText taskText) sk).1 := by
    intro d hd hdl
    have hdN : d ∈ newDecs := by
      rw [← hdecs]
      exact hpermD.mem_iff.mp hd
    obtain ⟨c, hcP, hcs, hcscore⟩ := hkeep d hdN hdl
    have hch := hCchar c (hpermP.mem_iff.mp hcP)
    refine ⟨c.skill, hch.1, hcs, ?_⟩
    rw [hcscore, hch.2.1]
  have hDucount : (D.filter (fun d => !d.skill.details_loaded)).length = 2 := by
    rw [(List.Perm.filter (fun d => !d.skill.details_loaded) hpermD).length_eq, hdecs]
    exact hucount2
  have hDtake : D.take topN = D := List.take_of_length_le (by rw [hDlen]; omega)
  have hres : schedule fs st taskText topN =
      ⟨D.take topN, ⟨st.max_detailed_reads, A.used, P.length, A.unread, 0, 0,
        A.skipped, false⟩, A.skills⟩ := by
    simp only [schedule]
    rw [if_neg hne]
    rw [← hCND, ← hP2, ← hA2, ← hD2]
    rw [if_pos hDne]
  have hrdec : (schedule fs st taskText topN).decisions = D := by
    rw [hres]
    show D.take topN = D
    exact hDtake
  have hrskills : (schedule fs st taskText topN).skills = A.skills := by
    rw [hres]
  have hrdiag : (schedule fs st taskText topN).diagnostics =
      ⟨st.max_detailed_reads, A.used, P.length, A.unread, 0, 0, A.skipped, false⟩ := by
    rw [hres]
  refine ⟨?_, ?_, ?_, ?_, ?_, ?_, ?_⟩
  · rw [hrskills]
    exact hloaded
  · rw [hrdiag]
    exact hused
  · rw [hrdiag]
    show decide (0 < A.unread + 0) = true
    rw [hunr]
    decide
  · rw [hrdec]
    exact hDlen
  · rw [hrdec]
    exact hDcov
  · rw [hrdec]
    exact hDkeep
  · rw [hrdec]
    exact hDucount

/-- C4, witness: the concrete budget scenario (four matching unloaded
skills, budget 2, topN 5) exhibits exactly two loaded skills, two used
reads, the guardrail, and four decisions. -/
theorem C4_budgetScenario_witness :
    ((schedule fsBud stBud "Please deploy to production" 5).skills.filter
        (fun s => s.details_loaded)).length = 2 ∧
    (schedule fsBud stBud "Please deploy to production" 5).diagnostics.detailed_reads_used = 2 ∧
    (schedule fsBud stBud "Please deploy to production" 5).diagnostics.guardrailTriggered = true ∧
    (schedule fsBud stBud "Please deploy to production" 5).decisions.length = 4 := by
  have h := C4_budgetScenario fsBud stBud "Please deploy to production" 5
    (by decide) (by decide) (by decide) (by decide) (by decide) (by decide) (by decide)
  exact ⟨h.1, h.2.1, h.2.2.1, h.2.2.2.1⟩
